import Mathlib

/-!
Verification of the Simple-Information-Retrieval-System repository.

The Python sources under `comp3009j-corpus-small/` (indexer, query engine,
evaluator) and `comp3009j-corpus-large/` (evaluator with BPREF) are shallowly
embedded here.  Python `dict`s are modelled as insertion-ordered association
lists (`List (κ × β)`) with the lookup/assignment semantics of `dict`:
assignment replaces the value in place when the key exists and appends
otherwise.  Python floats are modelled as `ℚ`; `math.log` / `math.log2` are
abstracted as a function parameter so that the numeric pipeline stays
executable, and are instantiated with `Real.log` / `Real.logb 2` in the
theorems.  A fallible Python computation (a raised exception such as
`ZeroDivisionError` or `KeyError`) is modelled as `Option`, `none` standing
for the raised exception.
-/

namespace IRSys

/-! ### Association lists: the model of Python `dict` -/

/-- `d[k]`-style lookup returning `none` when the key is absent
(the model of `k in d` / `d.get(k)` / `d[k]`). -/
def alookup {κ β : Type} [DecidableEq κ] : List (κ × β) → κ → Option β
  | [], _ => none
  | p :: ps, k => if p.1 = k then some p.2 else alookup ps k

/-- `d[k] = v` on a Python dict: replace in place if the key exists,
append otherwise. -/
def aupdate {κ β : Type} [DecidableEq κ] : List (κ × β) → κ → β → List (κ × β)
  | [], k, v => [(k, v)]
  | p :: ps, k, v => if p.1 = k then (k, v) :: ps else p :: aupdate ps k v

/-- The key sequence of a dict (`d.keys()`). -/
def akeys {κ β : Type} (l : List (κ × β)) : List κ := l.map Prod.fst

theorem alookup_nil {κ β : Type} [DecidableEq κ] (k : κ) :
    alookup ([] : List (κ × β)) k = none := rfl

theorem alookup_cons {κ β : Type} [DecidableEq κ] (p : κ × β) (ps : List (κ × β)) (k : κ) :
    alookup (p :: ps) k = if p.1 = k then some p.2 else alookup ps k := rfl

theorem alookup_append {κ β : Type} [DecidableEq κ] (l₁ l₂ : List (κ × β)) (k : κ) :
    alookup (l₁ ++ l₂) k =
      match alookup l₁ k with
      | some v => some v
      | none => alookup l₂ k := by
  induction l₁ with
  | nil => simp [alookup]
  | cons p ps ih =>
      by_cases h : p.1 = k <;> simp [alookup, h, ih]

theorem alookup_eq_none_iff {κ β : Type} [DecidableEq κ] (l : List (κ × β)) (k : κ) :
    alookup l k = none ↔ k ∉ akeys l := by
  induction l with
  | nil => simp [alookup, akeys]
  | cons p ps ih =>
      by_cases h : p.1 = k
      · subst h
        simp [alookup, akeys]
      · have h' : ¬ k = p.1 := fun he => h he.symm
        simp [alookup, akeys, h, h', ih]

theorem alookup_isSome_iff {κ β : Type} [DecidableEq κ] (l : List (κ × β)) (k : κ) :
    (alookup l k).isSome ↔ k ∈ akeys l := by
  rw [Option.isSome_iff_ne_none, ne_eq, alookup_eq_none_iff, not_not]

theorem alookup_mem {κ β : Type} [DecidableEq κ] {l : List (κ × β)} {k : κ} {v : β}
    (h : alookup l k = some v) : (k, v) ∈ l := by
  induction l with
  | nil => simp [alookup] at h
  | cons p ps ih =>
      rw [alookup_cons] at h
      by_cases hk : p.1 = k
      · rw [if_pos hk] at h
        obtain ⟨a, b⟩ := p
        obtain rfl : b = v := Option.some.inj h
        obtain rfl : a = k := hk
        exact List.mem_cons_self _ _
      · rw [if_neg hk] at h
        exact List.mem_cons_of_mem _ (ih h)

theorem alookup_of_mem {κ β : Type} [DecidableEq κ] {l : List (κ × β)} {k : κ} {v : β}
    (hnd : (akeys l).Nodup) (h : (k, v) ∈ l) : alookup l k = some v := by
  induction l with
  | nil => simp at h
  | cons p ps ih =>
      simp only [akeys, List.map_cons, List.nodup_cons] at hnd
      rcases List.mem_cons.mp h with h1 | h2
      · subst h1; simp [alookup]
      · have hk : p.1 ≠ k := by
          intro he
          exact hnd.1 (he ▸ (List.mem_map.mpr ⟨(k, v), h2, rfl⟩))
        simp [alookup, hk, ih hnd.2 h2]

theorem alookup_eq_some_iff_mem {κ β : Type} [DecidableEq κ] {l : List (κ × β)} {k : κ} {v : β}
    (hnd : (akeys l).Nodup) : alookup l k = some v ↔ (k, v) ∈ l :=
  ⟨alookup_mem, alookup_of_mem hnd⟩

theorem alookup_aupdate_self {κ β : Type} [DecidableEq κ] (l : List (κ × β)) (k : κ) (v : β) :
    alookup (aupdate l k v) k = some v := by
  induction l with
  | nil => simp [aupdate, alookup]
  | cons p ps ih =>
      by_cases h : p.1 = k <;> simp [aupdate, alookup, h, ih]

theorem alookup_aupdate_ne {κ β : Type} [DecidableEq κ] (l : List (κ × β)) (k k' : κ) (v : β)
    (hne : k ≠ k') : alookup (aupdate l k v) k' = alookup l k' := by
  induction l with
  | nil => simp [aupdate, alookup, hne]
  | cons p ps ih =>
      by_cases h : p.1 = k
      · simp [aupdate, alookup, h, hne]
      · simp only [aupdate, if_neg h]
        by_cases h' : p.1 = k' <;> simp [alookup, h', ih]

theorem akeys_aupdate {κ β : Type} [DecidableEq κ] (l : List (κ × β)) (k : κ) (v : β) :
    akeys (aupdate l k v) = if k ∈ akeys l then akeys l else akeys l ++ [k] := by
  induction l with
  | nil => simp [aupdate, akeys]
  | cons p ps ih =>
      by_cases h : p.1 = k
      · simp [aupdate, akeys, h]
      · have hne : ¬ k = p.1 := fun he => h he.symm
        simp only [aupdate, if_neg h, akeys, List.map_cons, List.mem_cons] at *
        rw [ih]
        by_cases hk : k ∈ List.map Prod.fst ps <;> simp [hk, hne]

theorem aupdate_of_not_mem {κ β : Type} [DecidableEq κ] {l : List (κ × β)} {k : κ} (v : β)
    (h : k ∉ akeys l) : aupdate l k v = l ++ [(k, v)] := by
  induction l with
  | nil => simp [aupdate]
  | cons p ps ih =>
      simp only [akeys, List.map_cons, List.mem_cons] at h
      push_neg at h
      have : p.1 ≠ k := fun he => h.1 he.symm
      simp [aupdate, this, ih h.2]

theorem alookup_map_value {κ β γ : Type} [DecidableEq κ] (f : κ → β → γ)
    (l : List (κ × β)) (k : κ) :
    alookup (l.map (fun p => (p.1, f p.1 p.2))) k = (alookup l k).map (f k) := by
  induction l with
  | nil => simp [alookup]
  | cons p ps ih =>
      by_cases h : p.1 = k
      · subst h; simp [alookup, ih]
      · simp [alookup, h, ih]

/-! ### Stable descending sort: the model of Python `sorted(·, key=…, reverse=True)`

Python's `sorted` is stable, and `reverse=True` reverses the comparison while
keeping equal elements in their original order.  A stable insertion sort that
inserts an earlier element before any later element with a key that is not
larger produces exactly that ordering. -/

/-- Insert `x` before the first element whose key is not larger than `x`'s. -/
def insertDesc {α β : Type} [LinearOrder β] (f : α → β) (x : α) : List α → List α
  | [] => [x]
  | y :: ys => if f y ≤ f x then x :: y :: ys else y :: insertDesc f x ys

/-- Stable sort, descending by the key `f` (Python `sorted(l, key=f, reverse=True)`). -/
def sortDescBy {α β : Type} [LinearOrder β] (f : α → β) (l : List α) : List α :=
  l.foldr (insertDesc f) []

theorem insertDesc_perm {α β : Type} [LinearOrder β] (f : α → β) (x : α) (l : List α) :
    List.Perm (insertDesc f x l) (x :: l) := by
  induction l with
  | nil => rfl
  | cons y ys ih =>
      by_cases h : f y ≤ f x
      · simp [insertDesc, h]
      · simp only [insertDesc, if_neg h]
        exact (ih.cons y).trans (List.Perm.swap x y ys)

theorem sortDescBy_perm {α β : Type} [LinearOrder β] (f : α → β) (l : List α) :
    List.Perm (sortDescBy f l) l := by
  induction l with
  | nil => rfl
  | cons x xs ih =>
      exact (insertDesc_perm f x (sortDescBy f xs)).trans (ih.cons x)

theorem insertDesc_pairwise {α β : Type} [LinearOrder β] (f : α → β) (x : α) (l : List α)
    (h : l.Pairwise (fun a b => f b ≤ f a)) :
    (insertDesc f x l).Pairwise (fun a b => f b ≤ f a) := by
  induction l with
  | nil => simp [insertDesc]
  | cons y ys ih =>
      rcases List.pairwise_cons.mp h with ⟨hy, hys⟩
      by_cases hle : f y ≤ f x
      · rw [insertDesc, if_pos hle]
        refine List.pairwise_cons.mpr ⟨?_, h⟩
        intro b hb
        rcases List.mem_cons.mp hb with rfl | hb
        · exact hle
        · exact le_trans (hy b hb) hle
      · rw [insertDesc, if_neg hle]
        refine List.pairwise_cons.mpr ⟨?_, ih hys⟩
        intro b hb
        have hb' : b ∈ x :: ys := (insertDesc_perm f x ys).mem_iff.mp hb
        rcases List.mem_cons.mp hb' with rfl | hb'
        · exact le_of_not_le hle
        · exact hy b hb'

theorem sortDescBy_pairwise {α β : Type} [LinearOrder β] (f : α → β) (l : List α) :
    (sortDescBy f l).Pairwise (fun a b => f b ≤ f a) := by
  induction l with
  | nil => simp [sortDescBy]
  | cons x xs ih => exact insertDesc_pairwise f x _ ih

theorem perm_akeys_nodup {κ β : Type} {l l' : List (κ × β)} (h : List.Perm l l')
    (hnd : (akeys l).Nodup) : (akeys l').Nodup :=
  ((h.map Prod.fst).nodup_iff).mp hnd

/-- Permuting a dict with distinct keys does not change lookups. -/
theorem alookup_perm {κ β : Type} [DecidableEq κ] {l l' : List (κ × β)} (h : List.Perm l l')
    (hnd : (akeys l).Nodup) (k : κ) : alookup l' k = alookup l k := by
  cases hv : alookup l k with
  | some v =>
      exact alookup_of_mem (perm_akeys_nodup h hnd) (h.mem_iff.mp (alookup_mem hv))
  | none =>
      rw [alookup_eq_none_iff] at hv ⊢
      exact fun hk => hv (((h.map Prod.fst).mem_iff).mpr hk)

theorem alookup_sortDescBy {κ β γ : Type} [DecidableEq κ] [LinearOrder γ]
    (f : κ × β → γ) (l : List (κ × β)) (hnd : (akeys l).Nodup) (k : κ) :
    alookup (sortDescBy f l) k = alookup l k :=
  alookup_perm (sortDescBy_perm f l).symm hnd k

/-! ### Tokenizer / normalizer
(`process_docs` in `index_small_corpus.py`, `process_query` in
`query_small_corpus.py`).

Text is modelled at the character level as `List Char`; a token/term is a
`Word := List Char`.  The Porter stemmer lives in `files/porter.py`, which the
scripts import but which is not part of the sources here, so the stemmer is a
function parameter `stem` throughout. -/

/-- Tokens and terms. -/
abbrev Word := List Char

/-- The whitespace characters Python `str.split()` splits on
(space, tab, newline, carriage return, form feed, vertical tab). -/
def isSpaceChar (c : Char) : Bool :=
  decide (c.toNat = 32 ∨ c.toNat = 9 ∨ c.toNat = 10 ∨ c.toNat = 13 ∨
    c.toNat = 12 ∨ c.toNat = 11)

/-- Membership in Python's `string.punctuation`, the 32 ASCII punctuation
code points (33–47, 58–64, 91–96, 123–126); digits (48–57) are not included. -/
def isPunct (c : Char) : Bool :=
  decide ((33 ≤ c.toNat ∧ c.toNat ≤ 47) ∨ (58 ≤ c.toNat ∧ c.toNat ≤ 64) ∨
    (91 ≤ c.toNat ∧ c.toNat ≤ 96) ∨ (123 ≤ c.toNat ∧ c.toNat ≤ 126))

/-- ASCII lower-casing of one character (`str.lower` on the ASCII inputs the
corpus consists of). -/
def lowerChar (c : Char) : Char :=
  if 65 ≤ c.toNat ∧ c.toNat ≤ 90 then Char.ofNat (c.toNat + 32) else c

/-- `word.lower().translate(str.maketrans('', '', string.punctuation))`:
lower-case, then delete every ASCII punctuation code point. -/
def cleanWord (w : Word) : Word :=
  (w.map lowerChar).filter (fun c => ¬ isPunct c)

/-- Cut a character list at every whitespace character (runs of whitespace
produce empty pieces, removed by `splitWs`). -/
def splitCore (s : List Char) : List Word :=
  s.foldr
    (fun c acc =>
      if isSpaceChar c then [] :: acc
      else
        match acc with
        | [] => [[c]]
        | w :: ws => (c :: w) :: ws)
    []

/-- Python `str.split()`: split on runs of whitespace, discarding empty
pieces. -/
def splitWs (s : List Char) : List Word :=
  (splitCore s).filter (fun w => w ≠ [])

/-- Join words with single spaces (used to feed a token list back through the
tokenizer as "whitespace-joined" text). -/
def joinWs : List Word → List Char
  | [] => []
  | [w] => w
  | w :: ws => w ++ Char.ofNat 32 :: joinWs ws

/-- `process_query` from `query_small_corpus.py`: split the query on
whitespace and, per token, lower-case, strip punctuation, drop empties and
stopwords, stem, and append.  `stem` abstracts `porter.PorterStemmer().stem`. -/
def process_query (stem : Word → Word) (stopwords : List Word) (query : List Char) :
    List Word :=
  (splitWs query).foldl
    (fun result word =>
      let w := cleanWord word
      if w ≠ [] ∧ w ∉ stopwords then result ++ [stem w] else result)
    []

/-- The per-document token loop of `process_docs` in `index_small_corpus.py`,
threading the `stemmed_words_cache` memoization dict: lower-case and strip
punctuation, drop empties and stopwords, look the cleaned word up in the cache
(stemming and caching it on a miss), and append the stem. -/
def process_words (stem : Word → Word) (stopwords : List Word) :
    List (Word × Word) → List Word → List Word → List (Word × Word) × List Word
  | cache, out, [] => (cache, out)
  | cache, out, word :: words =>
      let w := cleanWord word
      if w ≠ [] ∧ w ∉ stopwords then
        match alookup cache w with
        | some s => process_words stem stopwords cache (out ++ [s]) words
        | none =>
            process_words stem stopwords (cache ++ [(w, stem w)]) (out ++ [stem w]) words
      else process_words stem stopwords cache out words

/-- `process_docs` from `index_small_corpus.py`: documents come in already
split on whitespace (`content.split()` in `__main__`); the stemming cache is
shared across documents. -/
def process_docs {δ : Type} (stem : Word → Word) (documents : List (δ × List Word))
    (stopwords : List Word) : List (δ × List Word) :=
  (documents.foldl
    (fun st p =>
      let r := process_words stem stopwords st.1 [] p.2
      (r.1, st.2 ++ [(p.1, r.2)]))
    ([], [])).2

/-- The claim's per-token pipeline (spec §4.2): lower-case, strip ASCII
punctuation keeping digits, drop the token if empty or if the cleaned form is
a stopword (checked before stemming), otherwise emit the stem. -/
def normToken (stem : Word → Word) (stopwords : List Word) (word : Word) : Option Word :=
  let w := cleanWord word
  if w ≠ [] ∧ w ∉ stopwords then some (stem w) else none

theorem process_query_foldl (stem : Word → Word) (stopwords : List Word)
    (words : List Word) (acc : List Word) :
    words.foldl
      (fun result word =>
        let w := cleanWord word
        if w ≠ [] ∧ w ∉ stopwords then result ++ [stem w] else result)
      acc = acc ++ words.filterMap (normToken stem stopwords) := by
  induction words generalizing acc with
  | nil => simp
  | cons w ws ih =>
      simp only [List.foldl_cons, List.filterMap_cons, ih, normToken]
      by_cases h : cleanWord w ≠ [] ∧ cleanWord w ∉ stopwords
      · simp [h]
      · simp [h]

/-- `process_query` emits, in input-token order, exactly the per-token
pipeline of the claim. -/
theorem process_query_eq (stem : Word → Word) (stopwords : List Word) (query : List Char) :
    process_query stem stopwords query =
      (splitWs query).filterMap (normToken stem stopwords) := by
  simpa using process_query_foldl stem stopwords (splitWs query) []

theorem process_words_eq (stem : Word → Word) (stopwords : List Word)
    (words : List Word) (cache : List (Word × Word)) (out : List Word)
    (hc : ∀ p ∈ cache, p.2 = stem p.1) :
    (process_words stem stopwords cache out words).2 =
        out ++ words.filterMap (normToken stem stopwords) ∧
      ∀ p ∈ (process_words stem stopwords cache out words).1, p.2 = stem p.1 := by
  induction words generalizing cache out with
  | nil => exact ⟨by simp [process_words], hc⟩
  | cons w ws ih =>
      rw [process_words, List.filterMap_cons]
      simp only [normToken]
      by_cases h : cleanWord w ≠ [] ∧ cleanWord w ∉ stopwords
      · rw [if_pos h, if_pos h]
        cases hl : alookup cache (cleanWord w) with
        | some s =>
            have hs : s = stem (cleanWord w) := hc _ (alookup_mem hl)
            subst hs
            obtain ⟨h1, h2⟩ := ih cache (out ++ [stem (cleanWord w)]) hc
            exact ⟨by rw [h1]; simp, h2⟩
        | none =>
            have hc' : ∀ p ∈ cache ++ [(cleanWord w, stem (cleanWord w))], p.2 = stem p.1 := by
              intro p hp
              rcases List.mem_append.mp hp with hp | hp
              · exact hc p hp
              · simp at hp
                subst hp
                rfl
            obtain ⟨h1, h2⟩ := ih (cache ++ [(cleanWord w, stem (cleanWord w))])
              (out ++ [stem (cleanWord w)]) hc'
            exact ⟨by rw [h1]; simp, h2⟩
      · rw [if_neg h, if_neg h]
        have := ih cache out hc
        rw [this.1]
        exact ⟨by simp, this.2⟩

/-- `process_docs` maps the claimed per-token pipeline over every document;
the shared stemming cache is semantically invisible. -/
theorem process_docs_eq {δ : Type} (stem : Word → Word) (documents : List (δ × List Word))
    (stopwords : List Word) :
    process_docs stem documents stopwords =
      documents.map (fun p => (p.1, p.2.filterMap (normToken stem stopwords))) := by
  suffices h : ∀ (cache : List (Word × Word)) (out : List (δ × List Word)),
      (∀ p ∈ cache, p.2 = stem p.1) →
      (documents.foldl
        (fun st p =>
          let r := process_words stem stopwords st.1 [] p.2
          (r.1, st.2 ++ [(p.1, r.2)]))
        (cache, out)).2 =
        out ++ documents.map (fun p => (p.1, p.2.filterMap (normToken stem stopwords))) by
    simpa [process_docs] using h [] [] (by simp)
  induction documents with
  | nil => intro cache out _; simp
  | cons d ds ih =>
      intro cache out hc
      obtain ⟨h2, h1⟩ := process_words_eq stem stopwords d.2 cache [] hc
      simp only [List.foldl_cons, List.map_cons, h2]
      rw [ih _ _ h1]
      simp

theorem splitCore_cons (c : Char) (s : List Char) :
    splitCore (c :: s) =
      if isSpaceChar c then [] :: splitCore s
      else
        match splitCore s with
        | [] => [[c]]
        | w :: ws => (c :: w) :: ws := rfl

theorem splitCore_word_append {w : Word} (r : List Char)
    (hw : ∀ c ∈ w, isSpaceChar c = false) :
    splitCore (w ++ r) =
      match splitCore r with
      | [] => if w = [] then [] else [w]
      | x :: xs => (w ++ x) :: xs := by
  induction w with
  | nil =>
      cases h : splitCore r with
      | nil => simp [h]
      | cons x xs => simp [h]
  | cons c w' ih =>
      have hc : isSpaceChar c = false := hw c (List.mem_cons_self _ _)
      have hw' : ∀ c' ∈ w', isSpaceChar c' = false :=
        fun c' hc' => hw c' (List.mem_cons_of_mem _ hc')
      rw [List.cons_append, splitCore_cons, if_neg (by simp [hc]), ih hw']
      cases h : splitCore r with
      | nil =>
          by_cases hw0 : w' = [] <;> simp [hw0]
      | cons x xs => simp

theorem splitCore_join {ws : List Word} (hne : ws ≠ [])
    (h : ∀ w ∈ ws, w ≠ [] ∧ ∀ c ∈ w, isSpaceChar c = false) :
    splitCore (joinWs ws) = ws := by
  induction ws with
  | nil => exact absurd rfl hne
  | cons w rest ih =>
      obtain ⟨hw0, hwc⟩ := h w (List.mem_cons_self _ _)
      cases rest with
      | nil =>
          show splitCore w = [w]
          have h0 := splitCore_word_append (w := w) [] hwc
          rw [List.append_nil] at h0
          simpa [splitCore, hw0] using h0
      | cons w' rest' =>
          have hjoin : joinWs (w :: w' :: rest') = w ++ Char.ofNat 32 :: joinWs (w' :: rest') :=
            rfl
          rw [hjoin, splitCore_word_append _ hwc, splitCore_cons,
            if_pos (by decide), ih (by simp) (fun x hx => h x (List.mem_cons_of_mem _ hx))]
          simp

/-- Re-splitting the whitespace-join of nonempty whitespace-free words
recovers the words. -/
theorem splitWs_join {ws : List Word}
    (h : ∀ w ∈ ws, w ≠ [] ∧ ∀ c ∈ w, isSpaceChar c = false) :
    splitWs (joinWs ws) = ws := by
  cases hws : ws with
  | nil => rfl
  | cons w rest =>
      rw [splitWs, splitCore_join (by simp) (hws ▸ h)]
      exact List.filter_eq_self.mpr
        (fun w' hw' => by simpa using ((hws ▸ h) w' hw').1)

theorem filterMap_eq_self_of {α : Type} {f : α → Option α} {l : List α}
    (h : ∀ a ∈ l, f a = some a) : l.filterMap f = l := by
  induction l with
  | nil => rfl
  | cons a l ih =>
      rw [List.filterMap_cons, h a (List.mem_cons_self _ _),
        ih (fun a' ha' => h a' (List.mem_cons_of_mem _ ha'))]

/-- C3.  For every input text and stopword set, normalization (both the query
side `process_query` and the document side `process_docs`) processes each
whitespace-delimited token in input order by lower-casing, deleting every
ASCII punctuation code point while retaining digits (`cleanWord` with
`isPunct` covering exactly code points 33–47, 58–64, 91–96, 123–126),
dropping the token when the cleaned form is empty or is a stopword (checked
after lower-casing and before stemming), and otherwise emitting its stem;
the output order is the input token order, as exhibited by the `filterMap`
form. -/
theorem normalize_pipeline_spec (stem : Word → Word) (stopwords : List Word) :
    (∀ query : List Char,
      process_query stem stopwords query =
        (splitWs query).filterMap (normToken stem stopwords)) ∧
    ∀ (δ : Type) (documents : List (δ × List Word)),
      process_docs stem documents stopwords =
        documents.map (fun p => (p.1, p.2.filterMap (normToken stem stopwords))) :=
  ⟨fun query => process_query_eq stem stopwords query,
   fun _ documents => process_docs_eq stem documents stopwords⟩

/-- Modelled from the spec: the Porter stemmer is `files/porter.py`, imported
by the indexer and the query tool but not among the sources here.  Spec §8 S1
pins `porter("running") = "run"`, `porter("flies") = "fli"`,
`porter("relational") = "relat"`; this model realizes exactly those pinned
values and is the identity elsewhere.  Only the first pinned value is used
below. -/
def specStem (w : Word) : Word :=
  if w = ['r', 'u', 'n', 'n', 'i', 'n', 'g'] then ['r', 'u', 'n']
  else if w = ['f', 'l', 'i', 'e', 's'] then ['f', 'l', 'i']
  else if w = ['r', 'e', 'l', 'a', 't', 'i', 'o', 'n', 'a', 'l'] then
    ['r', 'e', 'l', 'a', 't']
  else w

/-- C9 counterexample.  Normalization is not idempotent for every input and
stopword set: with the stopword set `{"run"}` and input `"running"`, the
first pass emits the stem `"run"` (the stopword check precedes stemming, so
`"running"` is kept), but feeding the whitespace-joined output back drops
`"run"` as a stopword, so the second pass returns `[]` instead of `["run"]`. -/
theorem normalize_idempotence_fails :
    process_query specStem [['r', 'u', 'n']]
        (joinWs (process_query specStem [['r', 'u', 'n']]
          ['r', 'u', 'n', 'n', 'i', 'n', 'g'])) ≠
      process_query specStem [['r', 'u', 'n']]
        ['r', 'u', 'n', 'n', 'i', 'n', 'g'] := by
  decide

/-- C9 amended.  Normalization is idempotent on the whitespace-joined output
provided every emitted stem is nonempty, whitespace-free, fixed by cleaning
(lower-case and punctuation-free), not a stopword, and a fixed point of the
stemmer; the counterexample above shows the claim fails without these
provisos (in particular when a stem lands in the stopword set). -/
theorem normalize_idempotent_amended (stem : Word → Word) (stopwords : List Word)
    (text : List Char)
    (hgood : ∀ t ∈ process_query stem stopwords text,
      t ≠ [] ∧ (∀ c ∈ t, isSpaceChar c = false) ∧ cleanWord t = t ∧
        t ∉ stopwords ∧ stem t = t) :
    process_query stem stopwords (joinWs (process_query stem stopwords text)) =
      process_query stem stopwords text := by
  rw [process_query_eq stem stopwords (joinWs (process_query stem stopwords text)),
    splitWs_join (fun w hw => ⟨(hgood w hw).1, (hgood w hw).2.1⟩)]
  refine filterMap_eq_self_of (fun t ht => ?_)
  obtain ⟨h1, _, h3, h4, h5⟩ := hgood t ht
  simp only [normToken, h3]
  rw [if_pos ⟨h1, h4⟩, h5]

/-- Witness for the amended C9 at a concrete input: identity stemmer, empty
stopword list, text `"ab c"`. -/
theorem normalize_idempotent_amended_witness :
    process_query (fun w => w) []
        (joinWs (process_query (fun w => w) [] ['a', 'b', ' ', 'c'])) =
      process_query (fun w => w) [] ['a', 'b', ' ', 'c'] :=
  normalize_idempotent_amended (fun w => w) [] ['a', 'b', ' ', 'c'] (by decide)

/-! ### Indexer (`index_small_corpus.py`)

Terms `τ` and document ids `δ` are kept abstract with decidable equality
(the small corpus uses string terms and filename keys). -/

/-- The `term_freq` loop of `build_inverted_document_index`: raw counts of
each term, keyed in first-occurrence order. -/
def term_freq {τ : Type} [DecidableEq τ] (terms : List τ) : List (τ × ℕ) :=
  terms.foldl
    (fun tf term =>
      match alookup tf term with
      | some n => aupdate tf term (n + 1)
      | none => tf ++ [(term, 1)])
    []

/-- The `bm25_scores` dict comprehension of `build_inverted_document_index`:
`freq * (k+1) / (freq + k * ((1-b) + b*len(processed_documents[document_id])/avg_doclen))`;
the dict lookup `processed_documents[document_id]` is the document currently
being iterated, i.e. `terms` itself. -/
def bm25_scores {τ : Type} [DecidableEq τ] (k b : ℚ) (terms : List τ) (avg_doclen : ℚ) :
    List (τ × ℚ) :=
  (term_freq terms).map
    (fun p =>
      (p.1, ((p.2 : ℚ) * (k + 1)) /
        ((p.2 : ℚ) + k * ((1 - b) + b * (terms.length : ℚ) / avg_doclen))))

/-- The posting-insertion loop of `build_inverted_document_index`:
`inverted_index[term][document_id] = bm25_freq`, creating the inner dict when
the term is new. -/
def insert_doc_scores {τ δ : Type} [DecidableEq τ] [DecidableEq δ]
    (inverted_index : List (τ × List (δ × ℚ))) (document_id : δ) (scores : List (τ × ℚ)) :
    List (τ × List (δ × ℚ)) :=
  scores.foldl
    (fun inv p =>
      match alookup inv p.1 with
      | some postings => aupdate inv p.1 (aupdate postings document_id p.2)
      | none => inv ++ [(p.1, [(document_id, p.2)])])
    inverted_index

/-- `avg_doclen` in `build_inverted_document_index`:
`sum(len(terms) for terms in processed_documents.values()) / len(processed_documents)`. -/
def avg_doclen {τ δ : Type} (processed_documents : List (δ × List τ)) : ℚ :=
  ((processed_documents.map (fun p => (p.2.length : ℚ))).sum) /
    (processed_documents.length : ℚ)

/-- `build_inverted_document_index` from `index_small_corpus.py` (defaults
`k = 1.0`, `b = 0.75` at the call site).  On an empty corpus the Python code
raises `ZeroDivisionError` computing `avg_doclen`, modelled as `none`. -/
def build_inverted_document_index {τ δ : Type} [DecidableEq τ] [DecidableEq δ]
    (processed_documents : List (δ × List τ)) (k b : ℚ) :
    Option (List (τ × List (δ × ℚ))) :=
  if processed_documents.length = 0 then none
  else
    some (processed_documents.foldl
      (fun inv p => insert_doc_scores inv p.1 (bm25_scores k b p.2 (avg_doclen processed_documents)))
      [])

/-- `compute_idf` from `index_small_corpus.py`:
`idf[term] = log(1 + (total_docs - len(inverted_index[term]) + 0.5) / (len(inverted_index[term]) + 0.5))`,
with `math.log` abstracted as `lg`. -/
def compute_idf {τ δ α : Type} [DecidableEq τ] (lg : ℚ → α)
    (inverted_index : List (τ × List (δ × ℚ))) (total_docs : ℕ) : List (τ × α) :=
  inverted_index.map
    (fun p =>
      (p.1, lg (1 + ((total_docs : ℚ) - (p.2.length : ℚ) + 1/2) / ((p.2.length : ℚ) + 1/2))))

/-- `build_bm25_weight_index` from `index_small_corpus.py`:
`weight_index[term][doc] = idf[term] * inverted_index[term][doc]`, each
posting list then sorted by weight descending.  `idf` is produced by
`compute_idf`, whose keys are exactly those of `inverted_index`, so the
`inverted_index[term]` lookup cannot fail; a default `[]` keeps the model
total. -/
def build_bm25_weight_index {τ δ α : Type} [DecidableEq τ] [DecidableEq δ]
    [LinearOrderedField α] (idf : List (τ × α))
    (inverted_index : List (τ × List (δ × ℚ))) : List (τ × List (δ × α)) :=
  idf.foldl
    (fun weight_index p =>
      let postings := ((alookup inverted_index p.1).getD []).map
        (fun q => (q.1, p.2 * (q.2 : α)))
      weight_index ++ [(p.1, sortDescBy (fun x => x.2) postings)])
    []

/-- The BM25 term-frequency factor stored by the indexer for a term of a
document (the value of `bm25_scores`). -/
def tfScore {τ : Type} [DecidableEq τ] (k b : ℚ) (terms : List τ) (avg : ℚ) (t : τ) : ℚ :=
  ((terms.count t : ℚ) * (k + 1)) /
    ((terms.count t : ℚ) + k * ((1 - b) + b * (terms.length : ℚ) / avg))

/-- The posting list the index assigns to a term: one entry per document
containing the term, in corpus order. -/
def postingsFor {τ δ : Type} [DecidableEq τ] (k b avg : ℚ)
    (docs : List (δ × List τ)) (t : τ) : List (δ × ℚ) :=
  (docs.filter (fun p => t ∈ p.2)).map (fun p => (p.1, tfScore k b p.2 avg t))

theorem term_freq_loop {τ : Type} [DecidableEq τ] (terms : List τ)
    (acc : List (τ × ℕ)) (t : τ) :
    alookup (terms.foldl
      (fun tf term =>
        match alookup tf term with
        | some n => aupdate tf term (n + 1)
        | none => tf ++ [(term, 1)])
      acc) t =
    match alookup acc t with
    | some n => some (n + terms.count t)
    | none => if t ∈ terms then some (terms.count t) else none := by
  induction terms generalizing acc with
  | nil =>
      cases h : alookup acc t <;> simp [h]
  | cons t0 rest ih =>
      rw [List.foldl_cons, ih]
      by_cases ht : t0 = t
      · subst ht
        cases h : alookup acc t0 with
        | some n =>
            simp [alookup_aupdate_self, List.count_cons, Nat.add_comm, Nat.add_assoc,
              Nat.add_left_comm]
        | none =>
            simp [alookup_append, h, alookup, List.count_cons, Nat.add_comm]
      · have hne : t ≠ t0 := fun he => ht he.symm
        have hcount : (t0 :: rest).count t = rest.count t := by
          simp [List.count_cons, hne]
        cases h : alookup acc t0 with
        | some n =>
            have hupd := alookup_aupdate_ne acc t0 t (n + 1) ht
            cases h' : alookup acc t with
            | some m => simp [hupd, h', hcount]
            | none => simp [hupd, h', hcount, List.mem_cons, hne]
        | none =>
            cases h' : alookup acc t with
            | some m => simp [alookup_append, h', hcount]
            | none => simp [alookup_append, h', hcount, alookup, ht, hne, List.mem_cons]


theorem term_freq_alookup {τ : Type} [DecidableEq τ] (terms : List τ) (t : τ) :
    alookup (term_freq terms) t =
      if t ∈ terms then some (terms.count t) else none := by
  have h := term_freq_loop terms [] t
  simpa [alookup] using h

theorem term_freq_keys_nodup {τ : Type} [DecidableEq τ] (terms : List τ) :
    (akeys (term_freq terms)).Nodup := by
  suffices h : ∀ acc : List (τ × ℕ), (akeys acc).Nodup →
      (akeys (terms.foldl
        (fun tf term =>
          match alookup tf term with
          | some n => aupdate tf term (n + 1)
          | none => tf ++ [(term, 1)])
        acc)).Nodup by
    exact h [] (by simp [akeys])
  induction terms with
  | nil => intro acc hacc; exact hacc
  | cons t0 rest ih =>
      intro acc hacc
      rw [List.foldl_cons]
      cases h : alookup acc t0 with
      | some n =>
          refine ih _ ?_
          rw [akeys_aupdate]
          have ht0 : t0 ∈ akeys acc := (alookup_isSome_iff acc t0).mp (by simp [h])
          rw [if_pos ht0]
          exact hacc
      | none =>
          refine ih _ ?_
          have ht0 : t0 ∉ akeys acc := (alookup_eq_none_iff acc t0).mp h
          simp only [akeys, List.map_append, List.map_cons, List.map_nil]
          exact List.Nodup.append hacc (by simp) (by
            simp only [List.disjoint_cons_right, List.disjoint_nil_right, and_true]
            exact ht0)

theorem bm25_scores_alookup {τ : Type} [DecidableEq τ] (k b : ℚ) (terms : List τ)
    (avg : ℚ) (t : τ) :
    alookup (bm25_scores k b terms avg) t =
      if t ∈ terms then some (tfScore k b terms avg t) else none := by
  rw [bm25_scores, alookup_map_value
    (fun t (n : ℕ) => ((n : ℚ) * (k + 1)) /
      ((n : ℚ) + k * ((1 - b) + b * (terms.length : ℚ) / avg))),
    term_freq_alookup]
  by_cases h : t ∈ terms <;> simp [h, tfScore]

theorem bm25_scores_keys_nodup {τ : Type} [DecidableEq τ] (k b : ℚ) (terms : List τ)
    (avg : ℚ) : (akeys (bm25_scores k b terms avg)).Nodup := by
  have he : akeys (bm25_scores k b terms avg) = akeys (term_freq terms) := by
    simp [bm25_scores, akeys, List.map_map]
  rw [he]
  exact term_freq_keys_nodup terms

theorem insert_doc_scores_alookup {τ δ : Type} [DecidableEq τ] [DecidableEq δ]
    (scores : List (τ × ℚ)) (hnd : (akeys scores).Nodup)
    (inv : List (τ × List (δ × ℚ))) (d : δ) (t : τ) :
    alookup (insert_doc_scores inv d scores) t =
      match alookup scores t with
      | none => alookup inv t
      | some s =>
          match alookup inv t with
          | some pl => some (aupdate pl d s)
          | none => some [(d, s)] := by
  induction scores generalizing inv with
  | nil => simp [insert_doc_scores, alookup]
  | cons q rest ih =>
      obtain ⟨t0, s0⟩ := q
      simp only [akeys, List.map_cons, List.nodup_cons] at hnd
      have hndr : (akeys rest).Nodup := hnd.2
      have ht0r : t0 ∉ akeys rest := by
        intro hx
        exact hnd.1 (by simpa [akeys] using hx)
      have hrest : alookup rest t0 = none := (alookup_eq_none_iff rest t0).mpr ht0r
      have hstep : insert_doc_scores inv d ((t0, s0) :: rest) =
          insert_doc_scores
            (match alookup inv t0 with
             | some postings => aupdate inv t0 (aupdate postings d s0)
             | none => inv ++ [(t0, [(d, s0)])]) d rest := rfl
      rw [hstep]
      by_cases ht : t0 = t
      · subst ht
        cases hi : alookup inv t0 with
        | some pl =>
            rw [ih hndr _, hrest, alookup_aupdate_self]
            simp [alookup]
        | none =>
            rw [ih hndr _, hrest, alookup_append, hi]
            simp [alookup]
      · have hne : t ≠ t0 := fun he2 => ht he2.symm
        cases hi : alookup inv t0 with
        | some pl =>
            rw [ih hndr _, alookup_aupdate_ne _ _ _ _ ht]
            simp [alookup, ht]
        | none =>
            rw [ih hndr _, alookup_append]
            cases h2 : alookup inv t with
            | some pl2 => simp [alookup, ht, h2]
            | none => simp [alookup, ht, h2]

theorem insert_doc_scores_posting_keys {τ δ : Type} [DecidableEq τ] [DecidableEq δ]
    (scores : List (τ × ℚ)) (hnd : (akeys scores).Nodup)
    (inv : List (τ × List (δ × ℚ))) (d : δ) (t : τ) (pl : List (δ × ℚ))
    (h : alookup (insert_doc_scores inv d scores) t = some pl) :
    ∀ x ∈ akeys pl, (∃ pl0, alookup inv t = some pl0 ∧ x ∈ akeys pl0) ∨ x = d := by
  rw [insert_doc_scores_alookup scores hnd inv d t] at h
  intro x hx
  cases hs : alookup scores t with
  | none =>
      rw [hs] at h
      exact Or.inl ⟨pl, h, hx⟩
  | some s =>
      rw [hs] at h
      cases hi : alookup inv t with
      | some pl0 =>
          rw [hi] at h
          obtain rfl : aupdate pl0 d s = pl := Option.some.inj h
          rw [akeys_aupdate] at hx
          by_cases hd : d ∈ akeys pl0
          · rw [if_pos hd] at hx
            exact Or.inl ⟨pl0, rfl, hx⟩
          · rw [if_neg hd] at hx
            rcases List.mem_append.mp hx with hx | hx
            · exact Or.inl ⟨pl0, rfl, hx⟩
            · simp at hx
              exact Or.inr hx
      | none =>
          rw [hi] at h
          obtain rfl : [(d, s)] = pl := Option.some.inj h
          simp [akeys] at hx
          exact Or.inr hx

theorem postingsFor_cons {τ δ : Type} [DecidableEq τ] (k b avg : ℚ)
    (d : δ) (T : List τ) (rest : List (δ × List τ)) (t : τ) :
    postingsFor k b avg ((d, T) :: rest) t =
      if t ∈ T then (d, tfScore k b T avg t) :: postingsFor k b avg rest t
      else postingsFor k b avg rest t := by
  by_cases h : t ∈ T <;> simp [postingsFor, List.filter_cons, h]

theorem build_fold_alookup {τ δ : Type} [DecidableEq τ] [DecidableEq δ] (k b avg : ℚ)
    (docs : List (δ × List τ)) (acc : List (τ × List (δ × ℚ))) (t : τ)
    (hnd : (akeys docs).Nodup)
    (hacc : ∀ t' pl, alookup acc t' = some pl → ∀ p ∈ docs, p.1 ∉ akeys pl) :
    alookup
      (docs.foldl (fun inv p => insert_doc_scores inv p.1 (bm25_scores k b p.2 avg)) acc)
      t =
    match alookup acc t, postingsFor k b avg docs t with
    | some pl, l => some (pl ++ l)
    | none, [] => none
    | none, l => some l := by
  induction docs generalizing acc with
  | nil =>
      cases h : alookup acc t <;> simp [h, postingsFor]
  | cons p0 rest ih =>
      obtain ⟨d, T⟩ := p0
      simp only [akeys, List.map_cons, List.nodup_cons] at hnd
      have hndr : (akeys rest).Nodup := hnd.2
      have hdr : d ∉ akeys rest := by
        intro hx
        exact hnd.1 (by simpa [akeys] using hx)
      have hacc' : ∀ t' pl,
          alookup (insert_doc_scores acc d (bm25_scores k b T avg)) t' = some pl →
          ∀ p ∈ rest, p.1 ∉ akeys pl := by
        intro t' pl hpl p hp hmem
        rcases insert_doc_scores_posting_keys _ (bm25_scores_keys_nodup k b T avg)
            acc d t' pl hpl p.1 hmem with ⟨pl0, hpl0, hx0⟩ | hxd
        · exact hacc t' pl0 hpl0 p (List.mem_cons_of_mem _ hp) hx0
        · exact hdr (hxd ▸ List.mem_map.mpr ⟨p, hp, rfl⟩)
      rw [List.foldl_cons, ih _ hndr hacc', postingsFor_cons,
        insert_doc_scores_alookup _ (bm25_scores_keys_nodup k b T avg) acc d t,
        bm25_scores_alookup]
      by_cases hT : t ∈ T
      · rw [if_pos hT, if_pos hT]
        cases hi : alookup acc t with
        | some pl =>
            have hd : d ∉ akeys pl := hacc t pl hi (d, T) (List.mem_cons_self _ _)
            simp [aupdate_of_not_mem (tfScore k b T avg t) hd, List.append_assoc]
        | none => simp
      · rw [if_neg hT, if_neg hT]

theorem build_eq_some {τ δ : Type} [DecidableEq τ] [DecidableEq δ]
    (docs : List (δ × List τ)) (k b : ℚ) (hne : docs ≠ []) :
    build_inverted_document_index docs k b =
      some (docs.foldl
        (fun inv p => insert_doc_scores inv p.1 (bm25_scores k b p.2 (avg_doclen docs)))
        []) := by
  rw [build_inverted_document_index, if_neg (by simp [hne])]

/-- The inverted index built by `build_inverted_document_index` stores, for
each term, exactly one posting per document containing it, in corpus order,
holding the BM25 term-frequency factor. -/
theorem build_alookup {τ δ : Type} [DecidableEq τ] [DecidableEq δ]
    {docs : List (δ × List τ)} {k b : ℚ} {inv : List (τ × List (δ × ℚ))}
    (hne : docs ≠ []) (hnd : (akeys docs).Nodup)
    (hbuild : build_inverted_document_index docs k b = some inv) (t : τ) :
    alookup inv t =
      match postingsFor k b (avg_doclen docs) docs t with
      | [] => none
      | l => some l := by
  rw [build_eq_some docs k b hne] at hbuild
  obtain rfl := (Option.some.inj hbuild).symm
  rw [build_fold_alookup k b (avg_doclen docs) docs [] t hnd
    (by intro t' pl hpl; simp [alookup] at hpl)]
  cases hpf : postingsFor k b (avg_doclen docs) docs t <;> rfl

theorem postingsFor_akeys {τ δ : Type} [DecidableEq τ] (k b avg : ℚ)
    (docs : List (δ × List τ)) (t : τ) :
    akeys (postingsFor k b avg docs t) = akeys (docs.filter (fun p => t ∈ p.2)) := by
  simp [postingsFor, akeys, List.map_map]

theorem postingsFor_keys_nodup {τ δ : Type} [DecidableEq τ] (k b avg : ℚ)
    (docs : List (δ × List τ)) (t : τ) (hnd : (akeys docs).Nodup) :
    (akeys (postingsFor k b avg docs t)).Nodup := by
  rw [postingsFor_akeys]
  exact List.Nodup.sublist
    (List.Sublist.map Prod.fst (List.filter_sublist docs)) hnd

theorem compute_idf_alookup {τ δ α : Type} [DecidableEq τ] (lg : ℚ → α)
    (inv : List (τ × List (δ × ℚ))) (N : ℕ) (t : τ) :
    alookup (compute_idf lg inv N) t =
      (alookup inv t).map
        (fun pl => lg (1 + ((N : ℚ) - (pl.length : ℚ) + 1/2) / ((pl.length : ℚ) + 1/2))) :=
  alookup_map_value
    (fun _ (pl : List (δ × ℚ)) =>
      lg (1 + ((N : ℚ) - (pl.length : ℚ) + 1/2) / ((pl.length : ℚ) + 1/2)))
    inv t

theorem foldl_append_map {κ β γ : Type} (g : κ → β → γ) (l : List (κ × β))
    (acc : List (κ × γ)) :
    l.foldl (fun w p => w ++ [(p.1, g p.1 p.2)]) acc =
      acc ++ l.map (fun p => (p.1, g p.1 p.2)) := by
  induction l generalizing acc with
  | nil => simp
  | cons p ps ih => simp [ih]

theorem build_bm25_weight_index_eq_map {τ δ α : Type} [DecidableEq τ] [DecidableEq δ]
    [LinearOrderedField α] (idf : List (τ × α)) (inv : List (τ × List (δ × ℚ))) :
    build_bm25_weight_index idf inv =
      idf.map (fun p =>
        (p.1, sortDescBy (fun x => x.2)
          (((alookup inv p.1).getD []).map (fun q => (q.1, p.2 * (q.2 : α)))))) := by
  have h := foldl_append_map
    (fun (t : τ) (v : α) => sortDescBy (fun x => x.2)
      (((alookup inv t).getD []).map (fun q => (q.1, v * (q.2 : α)))))
    idf []
  simpa [build_bm25_weight_index] using h

theorem build_bm25_weight_index_alookup {τ δ α : Type} [DecidableEq τ] [DecidableEq δ]
    [LinearOrderedField α] (idf : List (τ × α)) (inv : List (τ × List (δ × ℚ))) (t : τ) :
    alookup (build_bm25_weight_index idf inv) t =
      (alookup idf t).map
        (fun v => sortDescBy (fun x => x.2)
          (((alookup inv t).getD []).map (fun q => (q.1, v * (q.2 : α))))) := by
  rw [build_bm25_weight_index_eq_map]
  exact alookup_map_value
    (fun (t : τ) (v : α) => sortDescBy (fun x => x.2)
      (((alookup inv t).getD []).map (fun q => (q.1, v * (q.2 : α)))))
    idf t

/-- Lookup through two dict levels: `index[t][d]`. -/
def alookup2 {τ δ β : Type} [DecidableEq τ] [DecidableEq δ]
    (idx : List (τ × List (δ × β))) (t : τ) (d : δ) : Option β :=
  (alookup idx t).bind (fun pl => alookup pl d)

theorem build_ne_nil {τ δ : Type} [DecidableEq τ] [DecidableEq δ]
    {docs : List (δ × List τ)} {k b : ℚ} {inv : List (τ × List (δ × ℚ))}
    (hbuild : build_inverted_document_index docs k b = some inv) : docs ≠ [] := by
  intro h
  subst h
  simp [build_inverted_document_index] at hbuild

theorem build_alookup_some {τ δ : Type} [DecidableEq τ] [DecidableEq δ]
    {docs : List (δ × List τ)} {k b : ℚ} {inv : List (τ × List (δ × ℚ))}
    {t : τ} {pl : List (δ × ℚ)}
    (hnd : (akeys docs).Nodup)
    (hbuild : build_inverted_document_index docs k b = some inv)
    (h : alookup inv t = some pl) :
    pl = postingsFor k b (avg_doclen docs) docs t ∧ pl ≠ [] := by
  rw [build_alookup (build_ne_nil hbuild) hnd hbuild t] at h
  cases hpf : postingsFor k b (avg_doclen docs) docs t with
  | nil => rw [hpf] at h; exact absurd h (by simp)
  | cons q qs =>
      rw [hpf] at h
      have h2 : q :: qs = pl := Option.some.inj h
      subst h2
      exact ⟨rfl, by simp⟩

theorem build_alookup_of_mem {τ δ : Type} [DecidableEq τ] [DecidableEq δ]
    {docs : List (δ × List τ)} {k b : ℚ} {inv : List (τ × List (δ × ℚ))}
    {d : δ} {T : List τ} {t : τ}
    (hnd : (akeys docs).Nodup)
    (hbuild : build_inverted_document_index docs k b = some inv)
    (hdoc : (d, T) ∈ docs) (ht : t ∈ T) :
    alookup inv t = some (postingsFor k b (avg_doclen docs) docs t) ∧
      alookup (postingsFor k b (avg_doclen docs) docs t) d =
        some (tfScore k b T (avg_doclen docs) t) := by
  have hfil : (d, T) ∈ docs.filter (fun p => t ∈ p.2) :=
    List.mem_filter.mpr ⟨hdoc, by simpa using ht⟩
  have hmem : (d, tfScore k b T (avg_doclen docs) t) ∈
      postingsFor k b (avg_doclen docs) docs t :=
    List.mem_map.mpr ⟨(d, T), hfil, rfl⟩
  have hne : postingsFor k b (avg_doclen docs) docs t ≠ [] := by
    intro h0
    rw [h0] at hmem
    simp at hmem
  constructor
  · rw [build_alookup (build_ne_nil hbuild) hnd hbuild t]
    cases hpf : postingsFor k b (avg_doclen docs) docs t with
    | nil => exact absurd hpf hne
    | cons q qs => rfl
  · exact alookup_of_mem (postingsFor_keys_nodup k b (avg_doclen docs) docs t hnd) hmem

/-- C7.  For every collection of documents (with distinct ids), every
document `d` and every term `t` produced by normalizing `d`, the index built
on the normalized documents contains `t` and `d` is a key of its posting
list; and every term present in the index has a non-empty posting list. -/
theorem index_completeness {δ : Type} [DecidableEq δ]
    (stem : Word → Word) (stopwords : List Word)
    (documents : List (δ × List Word)) (inv : List (Word × List (δ × ℚ))) (k b : ℚ)
    (hnd : (akeys documents).Nodup)
    (hbuild : build_inverted_document_index
      (process_docs stem documents stopwords) k b = some inv) :
    (∀ d ws t, (d, ws) ∈ documents →
      t ∈ ws.filterMap (normToken stem stopwords) →
      ∃ pl, alookup inv t = some pl ∧ d ∈ akeys pl) ∧
    ∀ t pl, alookup inv t = some pl → pl ≠ [] := by
  have hpd : process_docs stem documents stopwords =
      documents.map (fun p => (p.1, p.2.filterMap (normToken stem stopwords))) :=
    process_docs_eq stem documents stopwords
  have hnd' : (akeys (process_docs stem documents stopwords)).Nodup := by
    rw [hpd]
    simpa [akeys, List.map_map] using hnd
  constructor
  · intro d ws t hdoc ht
    have hdoc' : (d, ws.filterMap (normToken stem stopwords)) ∈
        process_docs stem documents stopwords := by
      rw [hpd]
      exact List.mem_map.mpr ⟨(d, ws), hdoc, rfl⟩
    obtain ⟨h1, h2⟩ := build_alookup_of_mem hnd' hbuild hdoc' ht
    refine ⟨_, h1, ?_⟩
    exact (alookup_isSome_iff _ d).mp (by simp [h2])
  · intro t pl hpl
    exact (build_alookup_some hnd' hbuild hpl).2

/-- Witness for C7: one document `0` whose sole word is `"c"`, identity
stemmer, no stopwords. -/
theorem index_completeness_witness :
    (∀ d ws t, (d, ws) ∈ ([(0, [['c']])] : List (ℕ × List Word)) →
      t ∈ ws.filterMap (normToken (fun w => w) []) →
      ∃ pl, alookup [(['c'], [((0 : ℕ), (1 : ℚ))])] t = some pl ∧ d ∈ akeys pl) ∧
    ∀ t pl, alookup [(['c'], [((0 : ℕ), (1 : ℚ))])] t = some pl → pl ≠ [] :=
  index_completeness (fun w => w) [] [(0, [['c']])] [(['c'], [(0, 1)])] 1 (3/4)
    (by decide)
    (by
      have h : process_docs (fun w : Word => w) [(0, [['c']])] [] = [(0, [['c']])] := by
        decide
      rw [h]
      norm_num [build_inverted_document_index, avg_doclen, insert_doc_scores,
        bm25_scores, term_freq, alookup, aupdate])

/-- C6.  For every corpus with at least one document and every term present
in the built index, the stored IDF value
`ln(1 + (N - df + 0.5) / (df + 0.5))` is strictly positive (including the
edge case `df = N`): the argument `a` of `math.log`, recovered by running
`compute_idf` with the identity in place of `log`, always exceeds 1. -/
theorem idf_positive {τ δ : Type} [DecidableEq τ] [DecidableEq δ]
    (docs : List (δ × List τ)) (inv : List (τ × List (δ × ℚ))) (t : τ) (a : ℚ)
    (hnd : (akeys docs).Nodup)
    (hbuild : build_inverted_document_index docs 1 (3/4) = some inv)
    (hidf : alookup (compute_idf (fun q => q) inv docs.length) t = some a) :
    alookup (compute_idf (fun q => Real.log (q : ℝ)) inv docs.length) t =
      some (Real.log (a : ℝ)) ∧ 0 < Real.log (a : ℝ) := by
  rw [compute_idf_alookup] at hidf
  cases hpl : alookup inv t with
  | none =>
      rw [hpl] at hidf
      simp at hidf
  | some pl =>
      rw [hpl] at hidf
      have ha : 1 + ((docs.length : ℚ) - (pl.length : ℚ) + 1/2) / ((pl.length : ℚ) + 1/2)
          = a := by
        simpa using hidf
      obtain ⟨hpf, hpne⟩ := build_alookup_some hnd hbuild hpl
      have hlen_le : pl.length ≤ docs.length := by
        rw [hpf, postingsFor, List.length_map]
        exact List.length_filter_le _ docs
      have ha1 : 1 < a := by
        rw [← ha]
        have hcast : (pl.length : ℚ) ≤ (docs.length : ℚ) := by exact_mod_cast hlen_le
        have hnum : (0:ℚ) < (docs.length : ℚ) - (pl.length : ℚ) + 1/2 := by linarith
        have hden : (0:ℚ) < (pl.length : ℚ) + 1/2 := by positivity
        have := div_pos hnum hden
        linarith
      have hlog : 0 < Real.log (a : ℝ) := Real.log_pos (by exact_mod_cast ha1)
      refine ⟨?_, hlog⟩
      rw [compute_idf_alookup, hpl]
      simp [← ha]

/-- Witness for C6: the one-document corpus `{0 ↦ [5]}`, whose index stores
term `5` with `df = 1` and `a = 4/3`. -/
theorem idf_positive_witness :
    alookup (compute_idf (fun q => Real.log (q : ℝ))
        [((5:ℕ), [((0:ℕ), (1:ℚ))])] ([((0:ℕ), [(5:ℕ)])] : List (ℕ × List ℕ)).length) 5 =
      some (Real.log ((4/3 : ℚ) : ℝ)) ∧ 0 < Real.log ((4/3 : ℚ) : ℝ) :=
  idf_positive [(0, [5])] [(5, [(0, 1)])] 5 (4/3) (by decide)
    (by norm_num [build_inverted_document_index, avg_doclen, insert_doc_scores,
      bm25_scores, term_freq, alookup, aupdate])
    (by norm_num [compute_idf, alookup])

/-- The claim's IDF formula: `ln(1 + (N - df + 0.5)/(df + 0.5))`. -/
noncomputable def idfSpec (N df : ℕ) : ℝ :=
  Real.log (1 + ((N : ℝ) - (df : ℝ) + 1/2) / ((df : ℝ) + 1/2))

/-- The claim's BM25 term-frequency factor
`tf*(k1+1) / (tf + k1*(1 - b + b*|d|/avgdl))`. -/
noncomputable def bm25TfSpec (k1 b : ℝ) (tf dl : ℕ) (avgdl : ℝ) : ℝ :=
  ((tf : ℝ) * (k1 + 1)) / ((tf : ℝ) + k1 * ((1 - b) + b * (dl : ℝ) / avgdl))

/-- The claim's average document length: the mean of `|d|` over all
documents. -/
noncomputable def avgdlSpec {τ δ : Type} (docs : List (δ × List τ)) : ℝ :=
  ((docs.map (fun p => (p.2.length : ℝ))).sum) / (docs.length : ℝ)

/-- The claim's document frequency: the number of documents containing `t`. -/
def dfSpec {τ δ : Type} [DecidableEq τ] (docs : List (δ × List τ)) (t : τ) : ℕ :=
  (docs.filter (fun p => t ∈ p.2)).length

theorem list_sum_len_cast {τ δ : Type} (docs : List (δ × List τ)) :
    (((docs.map (fun p => (p.2.length : ℚ))).sum : ℚ) : ℝ) =
      (docs.map (fun p => (p.2.length : ℝ))).sum := by
  induction docs with
  | nil => simp
  | cons p ps ih =>
      simp only [List.map_cons, List.sum_cons, Rat.cast_add, Rat.cast_natCast, ih]

theorem avg_doclen_cast {τ δ : Type} (docs : List (δ × List τ)) :
    ((avg_doclen docs : ℚ) : ℝ) = avgdlSpec docs := by
  rw [avg_doclen, avgdlSpec, Rat.cast_div, list_sum_len_cast, Rat.cast_natCast]

theorem postingsFor_length {τ δ : Type} [DecidableEq τ] (k b avg : ℚ)
    (docs : List (δ × List τ)) (t : τ) :
    (postingsFor k b avg docs t).length = dfSpec docs t := by
  rw [postingsFor, dfSpec, List.length_map]

theorem akeys_map_value {κ β γ : Type} (f : κ → β → γ) (l : List (κ × β)) :
    akeys (l.map (fun p => (p.1, f p.1 p.2))) = akeys l := by
  simp [akeys, List.map_map]

theorem scaled_posting_alookup {δ : Type} [DecidableEq δ] (pl : List (δ × ℚ)) (v : ℝ)
    (hnd : (akeys pl).Nodup) (d : δ) :
    alookup (sortDescBy (fun x => x.2) (pl.map (fun q => (q.1, v * (q.2 : ℝ))))) d =
      Option.map (fun s : ℚ => v * (s : ℝ)) (alookup pl d) := by
  have hk : (akeys (pl.map (fun q => (q.1, v * (q.2 : ℝ))))).Nodup := by
    rw [akeys_map_value (fun x (s : ℚ) => v * (s : ℝ))]
    exact hnd
  rw [alookup_sortDescBy _ _ hk d]
  exact alookup_map_value (fun x (s : ℚ) => v * (s : ℝ)) pl d

/-- C1.  For every corpus (with distinct document ids), document `d` with
token list `T` and term `t ∈ T`, the final weight index stores for `(t, d)`
exactly `idf(t) * tf*(k1+1)/(tf + k1*(1 - b + b*|d|/avgdl))` with `k1 = 1`,
`b = 0.75`, `tf` the raw count of `t` in `T`, `|d| = len(T)`, `avgdl` the
mean document length, `N` the number of documents, `df(t)` the number of
documents containing `t`, and `idf(t) = ln(1 + (N - df + 0.5)/(df + 0.5))`. -/
theorem bm25_weight_formula {τ δ : Type} [DecidableEq τ] [DecidableEq δ]
    (docs : List (δ × List τ)) (inv : List (τ × List (δ × ℚ)))
    (d : δ) (T : List τ) (t : τ)
    (hnd : (akeys docs).Nodup) (hdoc : (d, T) ∈ docs) (ht : t ∈ T)
    (hbuild : build_inverted_document_index docs 1 (3/4) = some inv) :
    alookup2
      (build_bm25_weight_index
        (compute_idf (fun q => Real.log (q : ℝ)) inv docs.length) inv)
      t d =
    some (idfSpec docs.length (dfSpec docs t) *
      bm25TfSpec 1 (3/4) (T.count t) T.length (avgdlSpec docs)) := by
  obtain ⟨h1, h2⟩ := build_alookup_of_mem hnd hbuild hdoc ht
  rw [alookup2, build_bm25_weight_index_alookup, compute_idf_alookup, h1]
  simp only [Option.map_some', Option.some_bind, Option.getD_some]
  rw [scaled_posting_alookup _ _
    (postingsFor_keys_nodup 1 (3/4) (avg_doclen docs) docs t hnd) d, h2]
  simp only [Option.map_some', Option.some.injEq]
  rw [postingsFor_length, idfSpec, bm25TfSpec, tfScore]
  push_cast [avg_doclen_cast]
  ring


/-- Witness for C1 at the one-document corpus `{0 ↦ [5]}`. -/
theorem bm25_weight_formula_witness :
    alookup2
      (build_bm25_weight_index
        (compute_idf (fun q => Real.log (q : ℝ)) [((5:ℕ), [((0:ℕ), (1:ℚ))])]
          ([((0:ℕ), [(5:ℕ)])] : List (ℕ × List ℕ)).length)
        [((5:ℕ), [((0:ℕ), (1:ℚ))])])
      5 0 =
    some (idfSpec ([((0:ℕ), [(5:ℕ)])] : List (ℕ × List ℕ)).length
        (dfSpec ([((0:ℕ), [(5:ℕ)])] : List (ℕ × List ℕ)) 5) *
      bm25TfSpec 1 (3/4) ([(5:ℕ)].count 5) [(5:ℕ)].length
        (avgdlSpec ([((0:ℕ), [(5:ℕ)])] : List (ℕ × List ℕ)))) :=
  bm25_weight_formula [(0, [5])] [(5, [(0, 1)])] 0 [5] 5 (by decide) (by decide)
    (by decide)
    (by norm_num [build_inverted_document_index, avg_doclen, insert_doc_scores,
      bm25_scores, term_freq, alookup, aupdate])

/-! ### Query engine (`query_small_corpus.py`) -/

/-- `find_relevant_documents` from `query_small_corpus.py`: a `Counter` is
updated with each query term's posting map (`result.update(index[query_word])`
adds each posting weight to the accumulated score, first insertion fixing the
key order), terms absent from the index are skipped, and the result is
`dict(result.most_common())`, i.e. the accumulator sorted by score
descending (stable). -/
def find_relevant_documents {τ δ : Type} [DecidableEq τ] [DecidableEq δ]
    (index : List (τ × List (δ × ℚ))) (processed_query : List τ) : List (δ × ℚ) :=
  sortDescBy (fun x => x.2)
    (processed_query.foldl
      (fun result query_word =>
        match alookup index query_word with
        | some postings =>
            postings.foldl
              (fun result q =>
                match alookup result q.1 with
                | some v => aupdate result q.1 (v + q.2)
                | none => result ++ [q])
              result
        | none => result)
      [])

/-- The record loop of `format_output` from `query_small_corpus.py`
(automatic mode): emit `(rank, document, score)` records starting at rank 1
and stop once the rank counter exceeds 15. -/
def format_output_records {δ : Type} : ℕ → List (δ × ℚ) → List (ℕ × δ × ℚ)
  | _, [] => []
  | rank_count, p :: ps =>
      if rank_count + 1 > 15 then [(rank_count, p.1, p.2)]
      else (rank_count, p.1, p.2) :: format_output_records (rank_count + 1) ps

/-- Claim-side ranking: the first 15 entries, paired with 1-based ranks. -/
def rankFrom {δ : Type} : ℕ → List (δ × ℚ) → List (ℕ × δ × ℚ)
  | _, [] => []
  | n, p :: ps => (n, p.1, p.2) :: rankFrom (n + 1) ps

/-- Claim-side accumulated score of a document: the sum, over every
occurrence of every query term present in the index, of the stored weight of
`(t, d)` (absent terms and absent postings contribute 0). -/
def scoreSum {τ δ : Type} [DecidableEq τ] [DecidableEq δ]
    (index : List (τ × List (δ × ℚ))) (q : List τ) (d : δ) : ℚ :=
  (q.map (fun t => ((alookup2 index t d).getD 0))).sum

/-- Claim-side: does some query term's posting list mention `d`? -/
def hitsB {τ δ : Type} [DecidableEq τ] [DecidableEq δ]
    (index : List (τ × List (δ × ℚ))) (q : List τ) (d : δ) : Bool :=
  q.any (fun t => (alookup2 index t d).isSome)

theorem counter_update_alookup {δ : Type} [DecidableEq δ]
    (pl : List (δ × ℚ)) (hnd : (akeys pl).Nodup) (acc : List (δ × ℚ)) (d : δ) :
    alookup (pl.foldl
      (fun result q =>
        match alookup result q.1 with
        | some v => aupdate result q.1 (v + q.2)
        | none => result ++ [q])
      acc) d =
    match alookup acc d, alookup pl d with
    | some v, some w => some (v + w)
    | some v, none => some v
    | none, some w => some w
    | none, none => none := by
  induction pl generalizing acc with
  | nil =>
      cases h : alookup acc d <;> simp [alookup, h]
  | cons q0 rest ih =>
      obtain ⟨d0, w0⟩ := q0
      simp only [akeys, List.map_cons, List.nodup_cons] at hnd
      have hndr : (akeys rest).Nodup := hnd.2
      have hd0r : alookup rest d0 = none :=
        (alookup_eq_none_iff rest d0).mpr (by
          intro hx
          exact hnd.1 (by simpa [akeys] using hx))
      rw [List.foldl_cons]
      by_cases hd : d0 = d
      · subst hd
        cases ha : alookup acc d0 with
        | some v =>
            rw [ih hndr _, alookup_aupdate_self, hd0r]
            simp [alookup]
        | none =>
            rw [ih hndr _, alookup_append, ha, hd0r]
            simp [alookup]
      · have hne : d ≠ d0 := fun he => hd he.symm
        cases ha : alookup acc d0 with
        | some v =>
            rw [ih hndr _, alookup_aupdate_ne _ _ _ _ hd]
            simp [alookup, hd]
        | none =>
            rw [ih hndr _, alookup_append]
            cases h2 : alookup acc d with
            | some v2 => simp [alookup, hd, h2]
            | none => simp [alookup, hd, h2]

theorem counter_update_keys_nodup {δ : Type} [DecidableEq δ]
    (pl : List (δ × ℚ)) (acc : List (δ × ℚ)) (hacc : (akeys acc).Nodup) :
    (akeys (pl.foldl
      (fun result q =>
        match alookup result q.1 with
        | some v => aupdate result q.1 (v + q.2)
        | none => result ++ [q])
      acc)).Nodup := by
  induction pl generalizing acc with
  | nil => exact hacc
  | cons q0 rest ih =>
      rw [List.foldl_cons]
      cases ha : alookup acc q0.1 with
      | some v =>
          refine ih _ ?_
          rw [akeys_aupdate,
            if_pos ((alookup_isSome_iff acc q0.1).mp (by simp [ha]))]
          exact hacc
      | none =>
          refine ih _ ?_
          have h0 : q0.1 ∉ akeys acc := (alookup_eq_none_iff acc q0.1).mp ha
          have : akeys (acc ++ [q0]) = akeys acc ++ [q0.1] := by
            simp [akeys]
          rw [this]
          exact List.Nodup.append hacc (by simp) (by simpa using h0)

theorem query_fold_alookup {τ δ : Type} [DecidableEq τ] [DecidableEq δ]
    (index : List (τ × List (δ × ℚ))) (hpl : ∀ p ∈ index, (akeys p.2).Nodup)
    (q : List τ) (acc : List (δ × ℚ)) (d : δ) :
    alookup (q.foldl
      (fun result query_word =>
        match alookup index query_word with
        | some postings =>
            postings.foldl
              (fun result q =>
                match alookup result q.1 with
                | some v => aupdate result q.1 (v + q.2)
                | none => result ++ [q])
              result
        | none => result)
      acc) d =
    match alookup acc d with
    | some v => some (v + scoreSum index q d)
    | none => if hitsB index q d then some (scoreSum index q d) else none := by
  induction q generalizing acc with
  | nil =>
      cases h : alookup acc d <;> simp [h, scoreSum, hitsB]
  | cons t rest ih =>
      rw [List.foldl_cons]
      have hsum : scoreSum index (t :: rest) d =
          ((alookup2 index t d).getD 0) + scoreSum index rest d := by
        simp [scoreSum]
      have hhits : hitsB index (t :: rest) d =
          ((alookup2 index t d).isSome || hitsB index rest d) := by
        simp [hitsB]
      cases hidx : alookup index t with
      | none =>
          have h2 : alookup2 index t d = none := by
            simp [alookup2, hidx]
          rw [ih _]
          rw [hsum, hhits, h2]
          simp
      | some pl =>
          have h2 : alookup2 index t d = alookup pl d := by
            simp [alookup2, hidx]
          have hplnd : (akeys pl).Nodup := hpl (t, pl) (alookup_mem hidx)
          rw [ih _, counter_update_alookup pl hplnd acc d, hsum, hhits, h2]
          cases ha : alookup acc d with
          | some v =>
              cases hw : alookup pl d with
              | some w => simp [add_assoc]
              | none => simp
          | none =>
              cases hw : alookup pl d with
              | some w => simp
              | none => simp

theorem query_fold_keys_nodup {τ δ : Type} [DecidableEq τ] [DecidableEq δ]
    (index : List (τ × List (δ × ℚ))) (q : List τ)
    (acc : List (δ × ℚ)) (hacc : (akeys acc).Nodup) :
    (akeys (q.foldl
      (fun result query_word =>
        match alookup index query_word with
        | some postings =>
            postings.foldl
              (fun result q =>
                match alookup result q.1 with
                | some v => aupdate result q.1 (v + q.2)
                | none => result ++ [q])
              result
        | none => result)
      acc)).Nodup := by
  induction q generalizing acc with
  | nil => exact hacc
  | cons t rest ih =>
      rw [List.foldl_cons]
      cases hidx : alookup index t with
      | none => exact ih _ hacc
      | some pl => exact ih _ (counter_update_keys_nodup pl acc hacc)

theorem format_output_records_eq {δ : Type} (l : List (δ × ℚ)) :
    ∀ n, 1 ≤ n → n ≤ 15 →
      format_output_records n l = rankFrom n (l.take (16 - n)) := by
  induction l with
  | nil => intro n h1 h15; simp [format_output_records, rankFrom]
  | cons p ps ih =>
      intro n h1 h15
      rw [format_output_records]
      by_cases h : n + 1 > 15
      · have hn : n = 15 := by omega
        subst hn
        rw [if_pos h]
        have h16 : 16 - 15 = 1 := by omega
        rw [h16]
        simp [rankFrom]
      · rw [if_neg h]
        have h16 : 16 - n = (15 - n) + 1 := by omega
        rw [h16, List.take_succ_cons, rankFrom, ih (n + 1) (by omega) (by omega)]
        have h15' : 16 - (n + 1) = 15 - n := by omega
        rw [h15']

/-- C2.  For every index (with well-formed posting lists) and every query,
the query engine accumulates, for each document, the sum over every
occurrence of every query term present in the index of the stored weight of
`(t, d)` — terms absent from the index contribute nothing — returns the
documents sorted by accumulated score descending, and the emitted output
consists of the first (at most) 15 entries with 1-based ranks. -/
theorem query_scoring_ranked {τ δ : Type} [DecidableEq τ] [DecidableEq δ]
    (index : List (τ × List (δ × ℚ))) (q : List τ)
    (hpl : ∀ p ∈ index, (akeys p.2).Nodup) :
    (find_relevant_documents index q).Pairwise (fun a b => b.2 ≤ a.2) ∧
    (∀ d s, ((d, s) ∈ find_relevant_documents index q ↔
      (hitsB index q d = true ∧ s = scoreSum index q d))) ∧
    format_output_records 1 (find_relevant_documents index q) =
      rankFrom 1 ((find_relevant_documents index q).take 15) := by
  have hN := query_fold_keys_nodup index q [] (by simp [akeys])
  refine ⟨sortDescBy_pairwise _ _, fun d s => ?_, ?_⟩
  · rw [find_relevant_documents,
      List.Perm.mem_iff (sortDescBy_perm _ _),
      ← alookup_eq_some_iff_mem hN,
      query_fold_alookup index hpl q [] d]
    simp only [alookup]
    by_cases hh : hitsB index q d
    · simp [hh, eq_comm]
    · simp [hh]
  · have h16 : (16 : ℕ) - 1 = 15 := by omega
    rw [format_output_records_eq _ 1 (by omega) (by omega), h16]

/-- Witness for C2: index `{7 ↦ {0 ↦ 2, 1 ↦ 1}}`, query `[7, 8, 7]` (the
term 7 repeated, the term 8 absent from the index). -/
theorem query_scoring_ranked_witness :
    (find_relevant_documents [((7:ℕ), [((0:ℕ), (2:ℚ)), (1, 1)])] [7, 8, 7]).Pairwise
        (fun a b => b.2 ≤ a.2) ∧
    (∀ d s, ((d, s) ∈ find_relevant_documents [((7:ℕ), [((0:ℕ), (2:ℚ)), (1, 1)])] [7, 8, 7] ↔
      (hitsB [((7:ℕ), [((0:ℕ), (2:ℚ)), (1, 1)])] [7, 8, 7] d = true ∧
        s = scoreSum [((7:ℕ), [((0:ℕ), (2:ℚ)), (1, 1)])] [7, 8, 7] d))) ∧
    format_output_records 1
        (find_relevant_documents [((7:ℕ), [((0:ℕ), (2:ℚ)), (1, 1)])] [7, 8, 7]) =
      rankFrom 1
        ((find_relevant_documents [((7:ℕ), [((0:ℕ), (2:ℚ)), (1, 1)])] [7, 8, 7]).take 15) :=
  query_scoring_ranked [((7:ℕ), [((0:ℕ), (2:ℚ)), (1, 1)])] [7, 8, 7] (by decide)

/-- C8 counterexample.  The claim says an empty corpus is not fatal, but
`build_inverted_document_index` computes
`avg_doclen = sum(...) / len(processed_documents)` before anything else, so
`N = 0` raises `ZeroDivisionError` in Python (modelled as `none`). -/
theorem empty_corpus_build_fails :
    build_inverted_document_index ([] : List (ℕ × List Word)) 1 (3/4) = none := rfl

/-- C8 amended.  A query that normalizes to zero terms (an empty query, or an
all-stopword query such as `"the the"` with stopword `"the"`) yields an empty
ranked list; but building the index on an empty corpus fails with a division
by zero while computing `avg_doclen`, so the `N = 0` case is fatal. -/
theorem empty_query_amended :
    (build_inverted_document_index ([] : List (ℕ × List Word)) 1 (3/4) = none) ∧
    (∀ (index : List (Word × List (ℕ × ℚ))) (stem : Word → Word) (stopwords : List Word),
      find_relevant_documents index (process_query stem stopwords []) = []) ∧
    (∀ index : List (Word × List (ℕ × ℚ)),
      find_relevant_documents index
        (process_query specStem [['t', 'h', 'e']]
          ['t', 'h', 'e', ' ', 't', 'h', 'e']) = []) :=
  ⟨rfl, fun _ _ _ => rfl, fun _ => rfl⟩

/-! ### Evaluator (`evaluate_small_corpus.py`; `bpref` and the qrels loader
from `evaluate_large_corpus.py`)

Query ids are the parsed integers of the results/qrels files (modelled `ℕ`);
grades are Python floats (modelled `ℚ`); `int(x)` is truncation toward
zero. -/

/-- Python `int()` applied to a float grade: truncation toward zero. -/
def pyInt (x : ℚ) : ℤ := Int.tdiv x.num (x.den : ℤ)

/-- `doc in relevant_docs and int(relevant_docs[doc]) > 0`. -/
def relevantPos {δ : Type} [DecidableEq δ] (relq : List (δ × ℚ)) (d : δ) : Bool :=
  match alookup relq d with
  | some g => decide (0 < pyInt g)
  | none => false

/-- The per-query loop of `precision` from `evaluate_small_corpus.py`:
`rel[query_id]` raises `KeyError` when the query is unjudged, and
`relevant_retrieved / len(retrieved_docs)` raises `ZeroDivisionError` on an
empty retrieved list (both modelled as `none`). -/
def precision_loop {δ : Type} [DecidableEq δ] (rel : List (ℕ × List (δ × ℚ))) :
    List (ℕ × List (δ × ℚ)) → Option ℚ
  | [] => some 0
  | (query_id, retrieved_docs) :: rest => do
      let relevant_docs ← alookup rel query_id
      let relevant_retrieved :=
        (retrieved_docs.filter (fun p => relevantPos relevant_docs p.1)).length
      if retrieved_docs.length = 0 then none
      else do
        let total ← precision_loop rel rest
        some (total + (relevant_retrieved : ℚ) / (retrieved_docs.length : ℚ))

/-- `precision` from `evaluate_small_corpus.py`, including the final division
by `len(ret)`. -/
def precision {δ : Type} [DecidableEq δ] (ret : List (ℕ × List (δ × ℚ)))
    (rel : List (ℕ × List (δ × ℚ))) : Option ℚ :=
  (precision_loop rel ret).bind
    (fun total => if ret.length = 0 then none else some (total / (ret.length : ℚ)))

/-- The per-query loop of `recall`: additionally divides by the number of
relevant documents with positive integer grade. -/
def recall_loop {δ : Type} [DecidableEq δ] (rel : List (ℕ × List (δ × ℚ))) :
    List (ℕ × List (δ × ℚ)) → Option ℚ
  | [] => some 0
  | (query_id, retrieved_docs) :: rest => do
      let relevant_docs ← alookup rel query_id
      let relevant_retrieved :=
        (retrieved_docs.filter (fun p => relevantPos relevant_docs p.1)).length
      let total_relevant :=
        (relevant_docs.filter (fun p => decide (0 < pyInt p.2))).length
      if total_relevant = 0 then none
      else do
        let total ← recall_loop rel rest
        some (total + (relevant_retrieved : ℚ) / (total_relevant : ℚ))

/-- `recall` from `evaluate_small_corpus.py` (`recall` is a reserved command
name here, hence the suffix). -/
def recall_eval {δ : Type} [DecidableEq δ] (ret : List (ℕ × List (δ × ℚ)))
    (rel : List (ℕ × List (δ × ℚ))) : Option ℚ :=
  (recall_loop rel ret).bind
    (fun total => if ret.length = 0 then none else some (total / (ret.length : ℚ)))

/-- The per-query loop of `r_precision`: count relevant documents among the
top `r = len(rel[query_id])` retrieved and divide by `r`. -/
def r_precision_loop {δ : Type} [DecidableEq δ] (rel : List (ℕ × List (δ × ℚ))) :
    List (ℕ × List (δ × ℚ)) → Option ℚ
  | [] => some 0
  | (query_id, retq) :: rest => do
      let relq ← alookup rel query_id
      let r := relq.length
      let relevant_in_top_r :=
        ((retq.take r).filter (fun p => relevantPos relq p.1)).length
      if r = 0 then none
      else do
        let total ← r_precision_loop rel rest
        some (total + (relevant_in_top_r : ℚ) / (r : ℚ))

/-- `r_precision` from `evaluate_small_corpus.py`. -/
def r_precision {δ : Type} [DecidableEq δ] (ret : List (ℕ × List (δ × ℚ)))
    (rel : List (ℕ × List (δ × ℚ))) : Option ℚ :=
  (r_precision_loop rel ret).bind
    (fun total => if ret.length = 0 then none else some (total / (ret.length : ℚ)))

/-- The inner loop of `mean_average_precision`: walk the retrieved list with
1-based positions, and at every judged document (membership only — no grade
check) add `relevant_count_so_far / i`.  State: (position, count, sum). -/
def avg_prec {δ : Type} [DecidableEq δ] (relq : List (δ × ℚ))
    (retq : List (δ × ℚ)) : ℚ :=
  (retq.foldl
    (fun st p =>
      let i := st.1 + 1
      if (alookup relq p.1).isSome then
        (i, st.2.1 + 1, st.2.2 + ((st.2.1 + 1 : ℕ) : ℚ) / (i : ℚ))
      else (i, st.2.1, st.2.2))
    ((0 : ℕ), (0 : ℕ), (0 : ℚ))).2.2

/-- The per-query loop of `mean_average_precision`: divides by
`len(rel[query_id])`. -/
def mean_average_precision_loop {δ : Type} [DecidableEq δ]
    (rel : List (ℕ × List (δ × ℚ))) :
    List (ℕ × List (δ × ℚ)) → Option ℚ
  | [] => some 0
  | (query_id, retq) :: rest => do
      let relq ← alookup rel query_id
      if relq.length = 0 then none
      else do
        let total ← mean_average_precision_loop rel rest
        some (total + avg_prec relq retq / (relq.length : ℚ))

/-- `mean_average_precision` from `evaluate_small_corpus.py`. -/
def mean_average_precision {δ : Type} [DecidableEq δ]
    (ret : List (ℕ × List (δ × ℚ))) (rel : List (ℕ × List (δ × ℚ))) : Option ℚ :=
  (mean_average_precision_loop rel ret).bind
    (fun total => if ret.length = 0 then none else some (total / (ret.length : ℚ)))

theorem precision_loop_isSome {δ : Type} [DecidableEq δ] (rel : List (ℕ × List (δ × ℚ)))
    (ret : List (ℕ × List (δ × ℚ)))
    (h : ∀ p ∈ ret, ∃ relq, alookup rel p.1 = some relq ∧ p.2 ≠ [] ∧
      ∃ x ∈ relq, 0 < pyInt x.2) :
    (precision_loop rel ret).isSome := by
  induction ret with
  | nil => simp [precision_loop]
  | cons p rest ih =>
      obtain ⟨q, docs⟩ := p
      obtain ⟨relq, hrel, hdocs, -⟩ := h (q, docs) (List.mem_cons_self _ _)
      obtain ⟨tot, htot⟩ := Option.isSome_iff_exists.mp
        (ih (fun p hp => h p (List.mem_cons_of_mem _ hp)))
      rw [precision_loop, hrel]
      simp only [Option.bind_eq_bind, Option.some_bind]
      rw [if_neg (by simpa using hdocs), htot]
      simp

theorem recall_loop_isSome {δ : Type} [DecidableEq δ] (rel : List (ℕ × List (δ × ℚ)))
    (ret : List (ℕ × List (δ × ℚ)))
    (h : ∀ p ∈ ret, ∃ relq, alookup rel p.1 = some relq ∧ p.2 ≠ [] ∧
      ∃ x ∈ relq, 0 < pyInt x.2) :
    (recall_loop rel ret).isSome := by
  induction ret with
  | nil => simp [recall_loop]
  | cons p rest ih =>
      obtain ⟨q, docs⟩ := p
      obtain ⟨relq, hrel, hdocs, x, hx, hxpos⟩ := h (q, docs) (List.mem_cons_self _ _)
      obtain ⟨tot, htot⟩ := Option.isSome_iff_exists.mp
        (ih (fun p hp => h p (List.mem_cons_of_mem _ hp)))
      rw [recall_loop, hrel]
      simp only [Option.bind_eq_bind, Option.some_bind]
      have hmem : x ∈ relq.filter (fun p => decide (0 < pyInt p.2)) :=
        List.mem_filter.mpr ⟨hx, by simpa using hxpos⟩
      rw [if_neg (by
        intro h0
        rw [List.length_eq_zero] at h0
        rw [h0] at hmem
        simp at hmem), htot]
      simp

theorem r_precision_loop_isSome {δ : Type} [DecidableEq δ] (rel : List (ℕ × List (δ × ℚ)))
    (ret : List (ℕ × List (δ × ℚ)))
    (h : ∀ p ∈ ret, ∃ relq, alookup rel p.1 = some relq ∧ p.2 ≠ [] ∧
      ∃ x ∈ relq, 0 < pyInt x.2) :
    (r_precision_loop rel ret).isSome := by
  induction ret with
  | nil => simp [r_precision_loop]
  | cons p rest ih =>
      obtain ⟨q, docs⟩ := p
      obtain ⟨relq, hrel, hdocs, x, hx, -⟩ := h (q, docs) (List.mem_cons_self _ _)
      obtain ⟨tot, htot⟩ := Option.isSome_iff_exists.mp
        (ih (fun p hp => h p (List.mem_cons_of_mem _ hp)))
      rw [r_precision_loop, hrel]
      simp only [Option.bind_eq_bind, Option.some_bind]
      rw [if_neg (by
        intro h0
        rw [List.length_eq_zero] at h0
        rw [h0] at hx
        simp at hx), htot]
      simp

theorem mean_average_precision_loop_isSome {δ : Type} [DecidableEq δ]
    (rel : List (ℕ × List (δ × ℚ))) (ret : List (ℕ × List (δ × ℚ)))
    (h : ∀ p ∈ ret, ∃ relq, alookup rel p.1 = some relq ∧ p.2 ≠ [] ∧
      ∃ x ∈ relq, 0 < pyInt x.2) :
    (mean_average_precision_loop rel ret).isSome := by
  induction ret with
  | nil => simp [mean_average_precision_loop]
  | cons p rest ih =>
      obtain ⟨q, docs⟩ := p
      obtain ⟨relq, hrel, hdocs, x, hx, -⟩ := h (q, docs) (List.mem_cons_self _ _)
      obtain ⟨tot, htot⟩ := Option.isSome_iff_exists.mp
        (ih (fun p hp => h p (List.mem_cons_of_mem _ hp)))
      rw [mean_average_precision_loop, hrel]
      simp only [Option.bind_eq_bind, Option.some_bind]
      rw [if_neg (by
        intro h0
        rw [List.length_eq_zero] at h0
        rw [h0] at hx
        simp at hx), htot]
      simp

/-- C10 counterexample.  With no queries at all the stated precondition holds
vacuously, yet all four metrics reach the final division by `len(ret) = 0`
and fail.  (`ZeroDivisionError` is modelled as `none`.) -/
theorem metrics_empty_ret_fails :
    precision ([] : List (ℕ × List (ℕ × ℚ))) [] = none ∧
    recall_eval ([] : List (ℕ × List (ℕ × ℚ))) [] = none ∧
    r_precision ([] : List (ℕ × List (ℕ × ℚ))) [] = none ∧
    mean_average_precision ([] : List (ℕ × List (ℕ × ℚ))) [] = none :=
  ⟨rfl, rfl, rfl, rfl⟩

/-- C10 amended.  If `ret` is non-empty, every query of `ret` is judged, its
retrieved list is non-empty, and its judgment list holds a document whose
grade truncates to a positive integer, then precision, recall, R-precision
and MAP all complete; and the precondition is required: a query absent from
the qrels, or one with an empty relevant set, makes them fail. -/
theorem metrics_total_amended {δ : Type} [DecidableEq δ]
    (ret rel : List (ℕ × List (δ × ℚ))) (hne : ret ≠ [])
    (h : ∀ p ∈ ret, ∃ relq, alookup rel p.1 = some relq ∧ p.2 ≠ [] ∧
      ∃ x ∈ relq, 0 < pyInt x.2) :
    ((precision ret rel).isSome ∧ (recall_eval ret rel).isSome ∧
      (r_precision ret rel).isSome ∧ (mean_average_precision ret rel).isSome) ∧
    (precision [((0:ℕ), [((0:ℕ), (1:ℚ))])] [] = none ∧
      recall_eval [((0:ℕ), [((0:ℕ), (1:ℚ))])] [] = none ∧
      r_precision [((0:ℕ), [((0:ℕ), (1:ℚ))])] [] = none ∧
      mean_average_precision [((0:ℕ), [((0:ℕ), (1:ℚ))])] [] = none) ∧
    (r_precision [((0:ℕ), [((0:ℕ), (1:ℚ))])] [((0:ℕ), ([] : List (ℕ × ℚ)))] = none ∧
      mean_average_precision [((0:ℕ), [((0:ℕ), (1:ℚ))])]
        [((0:ℕ), ([] : List (ℕ × ℚ)))] = none) := by
  refine ⟨⟨?_, ?_, ?_, ?_⟩, ⟨rfl, rfl, rfl, rfl⟩, ⟨rfl, rfl⟩⟩
  · obtain ⟨tot, htot⟩ := Option.isSome_iff_exists.mp (precision_loop_isSome rel ret h)
    rw [precision, htot]
    simp [hne]
  · obtain ⟨tot, htot⟩ := Option.isSome_iff_exists.mp (recall_loop_isSome rel ret h)
    rw [recall_eval, htot]
    simp [hne]
  · obtain ⟨tot, htot⟩ := Option.isSome_iff_exists.mp (r_precision_loop_isSome rel ret h)
    rw [r_precision, htot]
    simp [hne]
  · obtain ⟨tot, htot⟩ :=
      Option.isSome_iff_exists.mp (mean_average_precision_loop_isSome rel ret h)
    rw [mean_average_precision, htot]
    simp [hne]

/-- Witness for the amended C10: one query `0`, one retrieved document, one
positive judgment. -/
theorem metrics_total_amended_witness :
    ((precision [((0:ℕ), [((0:ℕ), (1:ℚ))])] [((0:ℕ), [((0:ℕ), (1:ℚ))])]).isSome ∧
      (recall_eval [((0:ℕ), [((0:ℕ), (1:ℚ))])] [((0:ℕ), [((0:ℕ), (1:ℚ))])]).isSome ∧
      (r_precision [((0:ℕ), [((0:ℕ), (1:ℚ))])] [((0:ℕ), [((0:ℕ), (1:ℚ))])]).isSome ∧
      (mean_average_precision [((0:ℕ), [((0:ℕ), (1:ℚ))])]
        [((0:ℕ), [((0:ℕ), (1:ℚ))])]).isSome) ∧
    (precision [((0:ℕ), [((0:ℕ), (1:ℚ))])] [] = none ∧
      recall_eval [((0:ℕ), [((0:ℕ), (1:ℚ))])] [] = none ∧
      r_precision [((0:ℕ), [((0:ℕ), (1:ℚ))])] [] = none ∧
      mean_average_precision [((0:ℕ), [((0:ℕ), (1:ℚ))])] [] = none) ∧
    (r_precision [((0:ℕ), [((0:ℕ), (1:ℚ))])] [((0:ℕ), ([] : List (ℕ × ℚ)))] = none ∧
      mean_average_precision [((0:ℕ), [((0:ℕ), (1:ℚ))])]
        [((0:ℕ), ([] : List (ℕ × ℚ)))] = none) :=
  metrics_total_amended [((0:ℕ), [((0:ℕ), (1:ℚ))])] [((0:ℕ), [((0:ℕ), (1:ℚ))])]
    (by simp)
    (by
      intro p hp
      simp only [List.mem_singleton] at hp
      subst hp
      exact ⟨[((0:ℕ), (1:ℚ))], rfl, by simp, ((0:ℕ), (1:ℚ)), by simp, by decide⟩)

/-- `dcg_at_k` from the evaluators: truncate the gain list to `k`, return 0
when empty, else `r[0] + sum(rel / log2(rank+1) for rank, rel in
enumerate(r[1:], start=2))`; `math.log2` is abstracted as `lg2`. -/
def dcg_at_k {α : Type} [LinearOrderedField α] (lg2 : ℕ → α) (r : List ℚ) (k : ℕ) : α :=
  match r.take k with
  | [] => 0
  | g :: rest => (g : α) + (rest.enum.map (fun p => (p.2 : α) / lg2 (p.1 + 3))).sum

/-- The per-query body of `ndcg_at_k` from the evaluators: re-sort the
retrieved list by stored score descending, build the gain list with 0 for
unjudged documents, divide DCG by the ideal DCG over the sorted judgment
grades, and return 0 when the ideal DCG is 0. -/
def ndcg_query {δ α : Type} [DecidableEq δ] [LinearOrderedField α] [DecidableEq α]
    (lg2 : ℕ → α) (retq : List (δ × ℚ)) (relq : List (δ × ℚ)) (k : ℕ) : α :=
  let retrieved_docs := sortDescBy (fun x => x.2) retq
  let actual_relevances := retrieved_docs.map (fun p => (alookup relq p.1).getD 0)
  let dcg := dcg_at_k lg2 actual_relevances k
  let ideal_relevances := sortDescBy (fun x => x) (relq.map (fun p => p.2))
  let idcg := dcg_at_k lg2 ideal_relevances k
  if idcg = 0 then 0 else dcg / idcg

/-- The claim\'s DCG formula:
`gains[0] + Σ_{i=2..k} gains[i-1] / log2(i+1)`, out-of-range gains read as
0. -/
def dcgSpec {α : Type} [LinearOrderedField α] (lg2 : ℕ → α) (gains : List ℚ)
    (k : ℕ) : α :=
  ((gains.getD 0 0 : ℚ) : α) +
    Finset.sum (Finset.Icc 2 k) (fun i => ((gains.getD (i - 1) 0 : ℚ) : α) / lg2 (i + 1))

/-- The claim\'s NDCG@15: gains from the score-sorted retrieved list with 0
for unjudged, IDCG from all qrels grades sorted descending truncated to 15,
and DCG/IDCG with 0 when IDCG = 0. -/
def ndcgSpec {δ α : Type} [DecidableEq δ] [LinearOrderedField α] [DecidableEq α]
    (lg2 : ℕ → α) (retq : List (δ × ℚ)) (relq : List (δ × ℚ)) : α :=
  let gains := (sortDescBy (fun x => x.2) retq).map (fun p => (alookup relq p.1).getD 0)
  let dcg := dcgSpec lg2 gains 15
  let ideal := (sortDescBy (fun x => x) (relq.map (fun p => p.2))).take 15
  let idcg := dcgSpec lg2 ideal 15
  if idcg = 0 then 0 else dcg / idcg

theorem enumFrom_map_take_sum {α : Type} [LinearOrderedField α] (g : ℕ → ℚ → α)
    (hg : ∀ j, g j 0 = 0) :
    ∀ (l : List ℚ) (m n : ℕ),
      (((l.take m).enumFrom n).map (fun p => g p.1 p.2)).sum =
        Finset.sum (Finset.range m) (fun j => g (n + j) (l.getD j 0)) := by
  intro l
  induction l with
  | nil =>
      intro m n
      simp [hg]
  | cons x xs ih =>
      intro m n
      cases m with
      | zero => simp
      | succ m' =>
          rw [List.take_succ_cons, List.enumFrom_cons]
          simp only [List.map_cons, List.sum_cons]
          rw [ih m' (n + 1), Finset.sum_range_succ']
          simp only [List.getD_cons_succ, List.getD_cons_zero, Nat.add_zero]
          have hpt : ∀ j, g (n + 1 + j) (xs.getD j 0) = g (n + (j + 1)) (xs.getD j 0) := by
            intro j
            have h : n + 1 + j = n + (j + 1) := by omega
            rw [h]
          rw [Finset.sum_congr rfl (fun j _ => hpt j)]
          ring

theorem dcg_at_k_eq_spec {α : Type} [LinearOrderedField α] (lg2 : ℕ → α)
    (r : List ℚ) (k : ℕ) (hk : 1 ≤ k) :
    dcg_at_k lg2 r k = dcgSpec lg2 r k := by
  cases r with
  | nil =>
      simp [dcg_at_k, dcgSpec]
  | cons g rest =>
      obtain ⟨k', rfl⟩ : ∃ k', k = k' + 1 := ⟨k - 1, by omega⟩
      have hL : dcg_at_k lg2 (g :: rest) (k' + 1) =
          (g : α) + (((rest.take k').enumFrom 0).map
            (fun p => (p.2 : α) / lg2 (p.1 + 3))).sum := rfl
      rw [hL,
        enumFrom_map_take_sum (fun j (v : ℚ) => (v : α) / lg2 (j + 3))
          (fun j => by simp) rest k' 0,
        dcgSpec]
      simp only [List.getD_cons_zero, Nat.zero_add]
      congr 1
      rw [← Nat.Ico_succ_right, Finset.sum_Ico_eq_sum_range]
      have hr : k' + 1 + 1 - 2 = k' := by omega
      rw [hr]
      refine Finset.sum_congr rfl (fun j _ => ?_)
      have h1 : 2 + j - 1 = j + 1 := by omega
      have h2 : 2 + j + 1 = j + 3 := by omega
      rw [h1, h2, List.getD_cons_succ]

theorem dcg_at_k_take {α : Type} [LinearOrderedField α] (lg2 : ℕ → α)
    (r : List ℚ) (k : ℕ) :
    dcg_at_k lg2 (r.take k) k = dcg_at_k lg2 r k := by
  rw [dcg_at_k, dcg_at_k, List.take_take, min_self]

/-- C4.  For every query, NDCG@15 re-sorts the retrieved list by stored
score descending, builds gains from the qrels with 0 for unjudged documents,
computes `DCG@15 = gains[0] + Σ_{i=2..15} gains[i-1]/log2(i+1)`, computes
IDCG@15 by the same formula on all the query\'s qrels grades sorted
descending and truncated to 15, and returns DCG/IDCG, or 0 when IDCG = 0. -/
theorem ndcg_query_spec {δ : Type} [DecidableEq δ]
    (retq : List (δ × ℚ)) (relq : List (δ × ℚ)) :
    ndcg_query (fun n => Real.logb 2 n) retq relq 15 =
      ndcgSpec (fun n => Real.logb 2 n) retq relq := by
  rw [ndcg_query, ndcgSpec]
  rw [← dcg_at_k_take (fun n => Real.logb 2 (n : ℝ))
    (sortDescBy (fun x => x) (relq.map (fun p => p.2))) 15]
  rw [dcg_at_k_eq_spec (fun n => Real.logb 2 (n : ℝ))
    ((sortDescBy (fun x => x.2) retq).map (fun p => (alookup relq p.1).getD 0)) 15
    (by omega)]
  rw [dcg_at_k_eq_spec (fun n => Real.logb 2 (n : ℝ))
    ((sortDescBy (fun x => x) (relq.map (fun p => p.2))).take 15) 15 (by omega)]

/-- The per-query body of `bpref` from `evaluate_large_corpus.py`:
`relevant_docs = {doc : rel > 0}`, `non_relevant_docs = {doc : rel <= 0}`,
and for each relevant document `r_doc`,
`count_B = #{n_doc in non_relevant_docs : ret_q.get(n_doc, 0) < ret_q.get(r_doc, 0)}`
— the judged-non-relevant documents scoring strictly BELOW `r_doc`
(an unretrieved document scores 0); the query score is
`(Σ_r count_B / N if N > 0 else 0) / R`. -/
def bpref_query {δ : Type} [DecidableEq δ] (retq : List (δ × ℚ))
    (relq : List (δ × ℚ)) : ℚ :=
  let relevant_docs := (relq.filter (fun p => 0 < p.2)).map (fun p => p.1)
  let non_relevant_docs := (relq.filter (fun p => p.2 ≤ 0)).map (fun p => p.1)
  let R := relevant_docs.length
  let N := non_relevant_docs.length
  let score_sum := (relevant_docs.map (fun r_doc =>
    let count_B := (non_relevant_docs.filter (fun n_doc =>
      ((alookup retq n_doc).getD 0) < ((alookup retq r_doc).getD 0))).length
    if 0 < N then (count_B : ℚ) / (N : ℚ) else 0)).sum
  if 0 < R then score_sum / (R : ℚ) else 0

/-- The full `bpref` loop over the qrels keys: queries with no relevant
document are skipped (`continue`) before `ret[query_id]` is touched; when
there are judged-non-relevant documents, `ret[query_id]` is read and raises
`KeyError` for a query missing from the results (modelled `none`); when
there are none, every contribution is 0 whatever the retrieved scores, so
the lookup is never evaluated and `[]` stands in.  Returns
(accumulated score, number of queries counted). -/
def bpref_loop {δ : Type} [DecidableEq δ] (ret : List (ℕ × List (δ × ℚ))) :
    List (ℕ × List (δ × ℚ)) → Option (ℚ × ℕ)
  | [] => some (0, 0)
  | (query_id, relq) :: rest =>
      if (relq.filter (fun p => 0 < p.2)).length = 0 then bpref_loop ret rest
      else do
        let retq ← if (relq.filter (fun p => p.2 ≤ 0)).length = 0 then some []
          else alookup ret query_id
        let st ← bpref_loop ret rest
        some (st.1 + bpref_query retq relq, st.2 + 1)

/-- `bpref` from `evaluate_large_corpus.py`: the average over the counted
queries, 0 when none were counted. -/
def bpref {δ : Type} [DecidableEq δ] (ret : List (ℕ × List (δ × ℚ)))
    (rel : List (ℕ × List (δ × ℚ))) : Option ℚ :=
  (bpref_loop ret rel).map
    (fun st => if 0 < st.2 then st.1 / (st.2 : ℚ) else 0)

/-- The claim\'s BPREF formula as stated: walk the retrieved list in rank
order; `B_r` for a retrieved relevant document `r` is the number of
judged-non-relevant documents ranked ABOVE `r` (earlier in the retrieved
list); `BPREF = (1/R) Σ_r B_r / N_jn` (0 when `N_jn = 0`), summed over the
retrieved relevant documents. -/
def bprefStated {δ : Type} [DecidableEq δ] (retq : List (δ × ℚ))
    (relq : List (δ × ℚ)) : ℚ :=
  let nonrel := (relq.filter (fun p => p.2 ≤ 0)).map (fun p => p.1)
  let R := (relq.filter (fun p => 0 < p.2)).length
  let Njn := nonrel.length
  (1 / (R : ℚ)) *
    (retq.foldl
      (fun st p =>
        let add : ℚ :=
          match alookup relq p.1 with
          | some g =>
              if 0 < g then (if 0 < Njn then (st.1 : ℚ) / (Njn : ℚ) else 0) else 0
          | none => 0
        let seen := if p.1 ∈ nonrel then st.1 + 1 else st.1
        (seen, st.2 + add))
      ((0 : ℕ), (0 : ℚ))).2

/-- C5 counterexample (the spec\'s own S6 scenario, with explicit scores).
Relevant = {1, 2}, judged-non-relevant = {10, 11}, retrieved order
`[10, 1, 11, 2]` with scores 4 > 3 > 2 > 1.  The claim\'s stated formula
(counting judged-non-relevant documents ranked ABOVE each retrieved relevant
document) gives 3/4 — the value the spec itself computes in S6 — but the
code counts judged-non-relevant documents scoring strictly BELOW each
relevant document and returns 1/4. -/
theorem bpref_direction_counterexample :
    bpref_query [((10:ℕ), (4:ℚ)), (1, 3), (11, 2), (2, 1)]
        [((1:ℕ), (1:ℚ)), (2, 1), (10, 0), (11, 0)] = 1/4 ∧
    bprefStated [((10:ℕ), (4:ℚ)), (1, 3), (11, 2), (2, 1)]
        [((1:ℕ), (1:ℚ)), (2, 1), (10, 0), (11, 0)] = 3/4 := by
  constructor <;>
    norm_num [bpref_query, bprefStated, alookup, List.filter, List.foldl]

/-- C5 amended.  For every query with `R = |{rel > 0}| > 0` and
`N_jn = |{rel ≤ 0}|`, the evaluator\'s BPREF(q) equals `(1/R)` times the sum
over EVERY relevant document `r` (retrieved or not) of `B_r / N_jn`, where
`B_r` is the number of judged-non-relevant documents whose retrieval score
(0 if unretrieved) is strictly LESS than `r`\'s — i.e. ranked below `r`, not
above as claimed — with 0 used when `N_jn = 0`; and queries with `R = 0` are
excluded from the average. -/
theorem bpref_amended {δ : Type} [DecidableEq δ] (retq relq : List (δ × ℚ))
    (hR : 0 < ((relq.filter (fun p => 0 < p.2)).map (fun p => p.1)).length) :
    (bpref_query retq relq =
      (1 / (((relq.filter (fun p => 0 < p.2)).map (fun p => p.1)).length : ℚ)) *
        (((relq.filter (fun p => 0 < p.2)).map (fun p => p.1)).map (fun r =>
          if 0 < ((relq.filter (fun p => p.2 ≤ 0)).map (fun p => p.1)).length then
            ((((relq.filter (fun p => p.2 ≤ 0)).map (fun p => p.1)).filter (fun n =>
                ((alookup retq n).getD 0) < ((alookup retq r).getD 0))).length : ℚ) /
              (((relq.filter (fun p => p.2 ≤ 0)).map (fun p => p.1)).length : ℚ)
          else 0)).sum) ∧
    ∀ (ret : List (ℕ × List (δ × ℚ))) (rel : List (ℕ × List (δ × ℚ)))
      (q : ℕ) (relq' : List (δ × ℚ)),
      (∀ p ∈ relq', ¬ 0 < p.2) → bpref ret ((q, relq') :: rel) = bpref ret rel := by
  constructor
  · rw [bpref_query]
    simp only [List.length_map] at hR ⊢
    rw [if_pos (by simpa using hR)]
    rw [div_eq_mul_inv, mul_comm, ← one_div]
  · intro ret rel q relq' hrel
    have h0 : (relq'.filter (fun p => 0 < p.2)).length = 0 := by
      rw [List.length_eq_zero, List.filter_eq_nil_iff]
      intro p hp
      simpa using hrel p hp
    rw [bpref, bpref, bpref_loop, if_pos h0]

/-- Witness for the amended C5 at the S6 scenario. -/
theorem bpref_amended_witness :
    (bpref_query [((10:ℕ), (4:ℚ)), (1, 3), (11, 2), (2, 1)]
        [((1:ℕ), (1:ℚ)), (2, 1), (10, 0), (11, 0)] =
      (1 / ((([((1:ℕ), (1:ℚ)), (2, 1), (10, 0), (11, 0)].filter
          (fun p => 0 < p.2)).map (fun p => p.1)).length : ℚ)) *
        ((([((1:ℕ), (1:ℚ)), (2, 1), (10, 0), (11, 0)].filter
            (fun p => 0 < p.2)).map (fun p => p.1)).map (fun r =>
          if 0 < (([((1:ℕ), (1:ℚ)), (2, 1), (10, 0), (11, 0)].filter
              (fun p => p.2 ≤ 0)).map (fun p => p.1)).length then
            (((([((1:ℕ), (1:ℚ)), (2, 1), (10, 0), (11, 0)].filter
                (fun p => p.2 ≤ 0)).map (fun p => p.1)).filter (fun n =>
                ((alookup [((10:ℕ), (4:ℚ)), (1, 3), (11, 2), (2, 1)] n).getD 0) <
                  ((alookup [((10:ℕ), (4:ℚ)), (1, 3), (11, 2), (2, 1)] r).getD 0))).length : ℚ) /
              ((([((1:ℕ), (1:ℚ)), (2, 1), (10, 0), (11, 0)].filter
                  (fun p => p.2 ≤ 0)).map (fun p => p.1)).length : ℚ)
          else 0)).sum) ∧
    ∀ (ret : List (ℕ × List (ℕ × ℚ))) (rel : List (ℕ × List (ℕ × ℚ)))
      (q : ℕ) (relq' : List (ℕ × ℚ)),
      (∀ p ∈ relq', ¬ 0 < p.2) → bpref ret ((q, relq') :: rel) = bpref ret rel :=
  bpref_amended [((10:ℕ), (4:ℚ)), (1, 3), (11, 2), (2, 1)]
    [((1:ℕ), (1:ℚ)), (2, 1), (10, 0), (11, 0)] (by decide)

end IRSys
